import Mathlib

/-!
Verification of the bwrss-cli core against its specification.

The definitions below are shallow embeddings of the TypeScript source:
  - src/util/dotpath.ts        (flatten, unflatten, matchGlob, filterByPatterns)
  - src/parsers/ini.ts         (iniParser.parse / merge)
  - src/parsers/json.ts        (detectJsonIndent)
  - src/parsers/yaml.ts        (yamlParser.merge, via the yaml library's
                                comment-preserving document model)
  - src/parsers/index.ts       (getParser)
  - src/core/config.ts         (validateConfig)
  - src/core/sync.ts           (splitByMachine, mergePayloads)
  - src/commands/save.ts       (per-file FilePayload construction)

JavaScript objects are modelled as insertion-ordered association lists
(property write updates the value in place, a new property is appended at
the end), matching Object.entries iteration order.  JavaScript Map objects
have the same insertion-order semantics.
-/

namespace Bwrss

/-- Look a key up in an association list (JS property read: first match;
an object never holds two entries with the same key, so first = only). -/
def alookup {α : Type} (l : List (String × α)) (k : String) : Option α :=
  match l with
  | [] => none
  | (k', v) :: rest => if k' = k then some v else alookup rest k

/-- JS property write / Map.set: update the value in place if the key is
present (keeping the entry position), else append the entry at the end. -/
def aset {α : Type} (l : List (String × α)) (k : String) (v : α) : List (String × α) :=
  match l with
  | [] => [(k, v)]
  | (k', v') :: rest => if k' = k then (k', v) :: rest else (k', v') :: aset rest k v

/-- JS delete / Map.delete: remove the entry with the given key. -/
def aerase {α : Type} (l : List (String × α)) (k : String) : List (String × α) :=
  match l with
  | [] => []
  | (k', v') :: rest => if k' = k then rest else (k', v') :: aerase rest k

theorem alookup_aset_self {α : Type} (l : List (String × α)) (k : String) (v : α) :
    alookup (aset l k v) k = some v := by
  induction l with
  | nil => simp [aset, alookup]
  | cons e rest ih =>
    obtain ⟨k', v'⟩ := e
    by_cases h : k' = k
    · simp [aset, h, alookup]
    · simp [aset, h, alookup, ih]

theorem aset_aset_self {α : Type} (l : List (String × α)) (k : String) (v w : α) :
    aset (aset l k v) k w = aset l k w := by
  induction l with
  | nil => simp [aset]
  | cons e rest ih =>
    obtain ⟨k', v'⟩ := e
    by_cases h : k' = k
    · simp [aset, h]
    · simp [aset, h, ih]

theorem aset_eq_of_alookup {α : Type} (l : List (String × α)) (k : String) (v : α)
    (h : alookup l k = some v) : aset l k v = l := by
  induction l with
  | nil => simp [alookup] at h
  | cons e rest ih =>
    obtain ⟨k', v'⟩ := e
    by_cases hk : k' = k
    · simp [alookup, hk] at h
      simp [aset, hk, h]
    · simp [alookup, hk] at h
      simp [aset, hk, ih h]

theorem aset_append_of_not_mem {α : Type} (l : List (String × α)) (k : String) (v : α)
    (h : alookup l k = none) : aset l k v = l ++ [(k, v)] := by
  induction l with
  | nil => simp [aset]
  | cons e rest ih =>
    obtain ⟨k', v'⟩ := e
    by_cases hk : k' = k
    · simp [alookup, hk] at h
    · simp [alookup, hk] at h
      simp [aset, hk, ih h]

theorem alookup_aset_of_ne {α : Type} (l : List (String × α)) (k k' : String) (v : α)
    (h : k ≠ k') : alookup (aset l k v) k' = alookup l k' := by
  induction l with
  | nil => simp [aset, alookup, h]
  | cons e rest ih =>
    obtain ⟨k₀, v₀⟩ := e
    by_cases hk : k₀ = k
    · subst hk
      simp [aset, alookup, h]
    · simp [aset, hk, alookup, ih]

/-- A JavaScript value as produced by YAML.parse / JSON.parse: strings,
integral numbers, booleans, null, arrays, and insertion-ordered objects. -/
inductive JVal : Type where
  | str : String → JVal
  | num : Int → JVal
  | bool : Bool → JVal
  | null : JVal
  | arr : List JVal → JVal
  | obj : List (String × JVal) → JVal

/-- Array element stringification used inside Array.prototype.join:
null renders as the empty string, otherwise as String(v). -/
def jsArrElemString : JVal → String
  | .null => ""
  | .str s => s
  | .num n => toString n
  | .bool b => if b then "true" else "false"
  | .arr xs => String.intercalate "," (xs.attach.map (fun x => jsArrElemString x.1))
  | .obj _ => "[object Object]"
decreasing_by
  have := List.sizeOf_lt_of_mem x.2
  simp only [JVal.arr.sizeOf_spec]
  omega

/-- JS String(value): identity on strings, decimal rendering of numbers,
comma-join for arrays, the fixed object tag for plain objects. -/
def jsToString : JVal → String
  | .str s => s
  | .num n => toString n
  | .bool b => if b then "true" else "false"
  | .null => "null"
  | .arr xs => String.intercalate "," (xs.map jsArrElemString)
  | .obj _ => "[object Object]"

/-! ## src/util/dotpath.ts -/

/-- Splitting a character list at every occurrence of a separator, as
String.prototype.split with a one-character separator string.  The
accumulator holds the current segment reversed. -/
def splitSepChars (sep : Char) : List Char → List Char → List (List Char)
  | [], acc => [acc.reverse]
  | c :: rest, acc =>
    if c = sep then acc.reverse :: splitSepChars sep rest []
    else splitSepChars sep rest (c :: acc)

/-- String.prototype.split(".") on a Lean string. -/
def splitDot (s : String) : List String :=
  (splitSepChars '.' s.data []).map (fun cs => String.mk cs)

/-- The flatten walk of dotpath.ts, listing the property writes in
traversal order: one (path, String(value)) pair per leaf, nested objects
recursed into with the extended prefix. -/
def flattenRaw : List (String × JVal) → String → List (String × String)
  | [], _ => []
  | (k, JVal.obj m) :: rest, pfx =>
    flattenRaw m (if pfx = "" then k else pfx ++ "." ++ k) ++ flattenRaw rest pfx
  | (k, v) :: rest, pfx =>
    ((if pfx = "" then k else pfx ++ "." ++ k), jsToString v) :: flattenRaw rest pfx
termination_by l _ => sizeOf l
decreasing_by
  all_goals simp <;> omega

/-- flatten of dotpath.ts: the source accumulates the pairs of flattenRaw
into a result object by successive property writes (result[path] = v for
leaves, Object.assign for recursive results); this fold performs exactly
that write sequence on the association-list object model. -/
def flatten (entries : List (String × JVal)) (pfx : String) : List (String × String) :=
  (flattenRaw entries pfx).foldl (fun acc e => aset acc e.1 e.2) []

/-- The dot-prop library refuses paths holding one of these segments. -/
def disallowedKey (k : String) : Bool :=
  k == "__proto__" || k == "prototype" || k == "constructor"

/-- The descent loop of dot-prop's setProperty over already-split path
segments: walk/create intermediate objects, write the value at the final
segment; a non-object intermediate is replaced by a fresh empty object. -/
def setPathSegs : List (String × JVal) → List String → JVal → List (String × JVal)
  | o, [], _ => o
  | o, [k], v => aset o k v
  | o, k :: seg :: rest, v =>
    match alookup o k with
    | some (JVal.obj m) => aset o k (JVal.obj (setPathSegs m (seg :: rest) v))
    | _ => aset o k (JVal.obj (setPathSegs [] (seg :: rest) v))

/-- dot-prop setProperty: split the path at dots (no escape characters
occur in the paths of this development), refuse disallowed segments,
then run the descent loop. -/
def setProperty (o : List (String × JVal)) (path : String) (v : JVal) : List (String × JVal) :=
  let segs := splitDot path
  if segs.any disallowedKey then o else setPathSegs o segs v

/-- unflatten of dotpath.ts: start from an empty object and run
setProperty for every (path, value) entry in order. -/
def unflatten (flat : List (String × String)) : List (String × JVal) :=
  flat.foldl (fun acc e => setProperty acc e.1 (JVal.str e.2)) []

/-- One token of the regex built by matchGlob: a literally-matched
character, a single star (compiled to the non-dot class), or a
double star (compiled to dot-star). -/
inductive GlobTok : Type where
  | lit : Char → GlobTok
  | star : GlobTok
  | anyStar : GlobTok
deriving DecidableEq

/-- Reading of matchGlob's replace pipeline: double stars are replaced
first (pairs, left to right), remaining stars second, every other
character stands for itself (dots are regex-escaped by the source). -/
def tokenizeGlob : List Char → List GlobTok
  | [] => []
  | '*' :: '*' :: rest => GlobTok.anyStar :: tokenizeGlob rest
  | '*' :: rest => GlobTok.star :: tokenizeGlob rest
  | c :: rest => GlobTok.lit c :: tokenizeGlob rest

/-- Anchored matching of the compiled token list against the key:
lit c matches exactly c, star matches any run of non-dot characters,
anyStar matches any run; the whole key must be consumed. -/
def globMatch : List GlobTok → List Char → Bool
  | [], [] => true
  | [], _ :: _ => false
  | GlobTok.lit _ :: _, [] => false
  | GlobTok.lit c :: ts, d :: ds => c == d && globMatch ts ds
  | GlobTok.star :: ts, s =>
    globMatch ts s ||
      match s with
      | [] => false
      | d :: ds => !(d == '.') && globMatch (GlobTok.star :: ts) ds
  | GlobTok.anyStar :: ts, s =>
    globMatch ts s ||
      match s with
      | [] => false
      | _ :: ds => globMatch (GlobTok.anyStar :: ts) ds
termination_by ts s => (s.length, ts.length)

/-- matchGlob of dotpath.ts: compile the pattern and test the key against
the anchored result. -/
def matchGlob (key pattern : String) : Bool :=
  globMatch (tokenizeGlob pattern.data) key.data

/-- filterByPatterns of dotpath.ts: keep the entries whose key matches at
least one pattern, in input order. -/
def filterByPatterns (data : List (String × String)) (patterns : List String) :
    List (String × String) :=
  data.filter (fun e => patterns.any (fun p => matchGlob e.1 p))

/-- Declarative anchored matching semantics for a compiled pattern:
the key decomposes into one piece per token, a literal token contributes
exactly its character, a star contributes a run free of dots, a doubled
star contributes an arbitrary run, and the pieces cover the whole key. -/
inductive GlobSem : List GlobTok → List Char → Prop where
  | nil : GlobSem [] []
  | lit (c : Char) (ts : List GlobTok) (s : List Char) :
      GlobSem ts s → GlobSem (GlobTok.lit c :: ts) (c :: s)
  | star (w : List Char) (ts : List GlobTok) (s : List Char) :
      (∀ c ∈ w, c ≠ '.') → GlobSem ts s → GlobSem (GlobTok.star :: ts) (w ++ s)
  | anyStar (w : List Char) (ts : List GlobTok) (s : List Char) :
      GlobSem ts s → GlobSem (GlobTok.anyStar :: ts) (w ++ s)

theorem globMatch_star_append (w : List Char) (ts : List GlobTok) (s : List Char)
    (hw : ∀ c ∈ w, c ≠ '.') (h : globMatch ts s = true) :
    globMatch (GlobTok.star :: ts) (w ++ s) = true := by
  induction w with
  | nil =>
    cases s with
    | nil => simp [globMatch, h]
    | cons d ds => simp [globMatch, h]
  | cons c w ih =>
    have hc : c ≠ '.' := hw c (by simp)
    have hrest : ∀ d ∈ w, d ≠ '.' := fun d hd => hw d (by simp [hd])
    simp only [List.cons_append]
    rw [globMatch.eq_6]
    simp [ih hrest, hc]

theorem globMatch_anyStar_append (w : List Char) (ts : List GlobTok) (s : List Char)
    (h : globMatch ts s = true) :
    globMatch (GlobTok.anyStar :: ts) (w ++ s) = true := by
  induction w with
  | nil =>
    cases s with
    | nil => simp [globMatch, h]
    | cons d ds => simp [globMatch, h]
  | cons c w ih =>
    simp only [List.cons_append]
    rw [globMatch.eq_8]
    simp [ih]

theorem globSem_star_inv {ts : List GlobTok} {s : List Char}
    (h : GlobSem (GlobTok.star :: ts) s) :
    ∃ w s2, s = w ++ s2 ∧ (∀ c ∈ w, c ≠ '.') ∧ GlobSem ts s2 := by
  cases h
  rename_i w s2 hw htl
  exact ⟨w, s2, rfl, hw, htl⟩

theorem globSem_anyStar_inv {ts : List GlobTok} {s : List Char}
    (h : GlobSem (GlobTok.anyStar :: ts) s) :
    ∃ w s2, s = w ++ s2 ∧ GlobSem ts s2 := by
  cases h
  rename_i w s2 htl
  exact ⟨w, s2, rfl, htl⟩

theorem globMatch_complete (ts : List GlobTok) (s : List Char) (h : GlobSem ts s) :
    globMatch ts s = true := by
  induction h with
  | nil => simp [globMatch]
  | lit c ts s _ ih => simp [globMatch, ih]
  | star w ts s hw _ ih => exact globMatch_star_append w ts s hw ih
  | anyStar w ts s _ ih => exact globMatch_anyStar_append w ts s ih

theorem globMatch_sound (n : Nat) :
    ∀ ts s, List.length ts + List.length s ≤ n → globMatch ts s = true → GlobSem ts s := by
  induction n with
  | zero =>
    intro ts s hlen h
    match ts, s with
    | [], [] => exact GlobSem.nil
    | t :: ts, s => simp at hlen
    | [], c :: s => simp at hlen
  | succ n ih =>
    intro ts s hlen h
    match ts, s with
    | [], [] => exact GlobSem.nil
    | [], c :: s => simp [globMatch] at h
    | GlobTok.lit c :: ts, [] => simp [globMatch] at h
    | GlobTok.lit c :: ts, d :: ds =>
      rw [globMatch.eq_4] at h
      simp at h
      obtain ⟨rfl, h2⟩ := h
      exact GlobSem.lit c ts ds (ih ts ds (by simp at hlen; omega) h2)
    | GlobTok.star :: ts, [] =>
      rw [globMatch.eq_5] at h
      simp at h
      exact GlobSem.star [] ts [] (by simp) (ih ts [] (by simp at hlen ⊢; omega) h)
    | GlobTok.star :: ts, d :: ds =>
      rw [globMatch.eq_6] at h
      simp at h
      rcases h with h | ⟨hd, h2⟩
      · exact GlobSem.star [] ts (d :: ds) (by simp)
          (ih ts (d :: ds) (by simp at hlen ⊢; omega) h)
      · have hsem := ih (GlobTok.star :: ts) ds (by simp at hlen ⊢; omega) h2
        obtain ⟨w, s2, rfl, hw, htl⟩ := globSem_star_inv hsem
        have : d :: (w ++ s2) = (d :: w) ++ s2 := rfl
        rw [this]
        exact GlobSem.star (d :: w) ts s2 (by
          intro c hc
          rcases List.mem_cons.mp hc with rfl | hc
          · exact hd
          · exact hw c hc) htl
    | GlobTok.anyStar :: ts, [] =>
      rw [globMatch.eq_7] at h
      simp at h
      exact GlobSem.anyStar [] ts [] (ih ts [] (by simp at hlen ⊢; omega) h)
    | GlobTok.anyStar :: ts, d :: ds =>
      rw [globMatch.eq_8] at h
      simp at h
      rcases h with h | h
      · exact GlobSem.anyStar [] ts (d :: ds) (ih ts (d :: ds) (by simp at hlen ⊢; omega) h)
      · have hsem := ih (GlobTok.anyStar :: ts) ds (by simp at hlen ⊢; omega) h
        obtain ⟨w, s2, rfl, htl⟩ := globSem_anyStar_inv hsem
        have : d :: (w ++ s2) = (d :: w) ++ s2 := rfl
        rw [this]
        exact GlobSem.anyStar (d :: w) ts s2 htl

theorem globMatch_iff_sem (ts : List GlobTok) (s : List Char) :
    globMatch ts s = true ↔ GlobSem ts s :=
  ⟨globMatch_sound (List.length ts + List.length s) ts s (Nat.le_refl _),
   globMatch_complete ts s⟩

/-- Characters on which the regex built by matchGlob treats every
non-star character literally: letters, digits, underscore, hyphen, dot. -/
def safeGlobChar (c : Char) : Bool :=
  c.isAlphanum || c == '_' || c == '-' || c == '.' || c == '*'

/-- Patterns within the embedding's domain: no regex metacharacter other
than the star and the dot (which the source escapes) occurs. -/
def patternSafe (p : String) : Bool :=
  p.data.all safeGlobChar

/-- Token reading used by the claim's own wording, where every star,
a doubled one included, matches only runs free of dots. -/
def tokenizeAllSingle : List Char → List GlobTok
  | [] => []
  | '*' :: rest => GlobTok.star :: tokenizeAllSingle rest
  | c :: rest => GlobTok.lit c :: tokenizeAllSingle rest

/-! ## Round-trip infrastructure for flatten / unflatten -/

/-- Segment-level view of the flatten walk: the same leaves in the same
order, with the dot-path kept as its list of segments. -/
def flattenSegs : List (String × JVal) → List (List String × String)
  | [] => []
  | (k, JVal.obj m) :: rest =>
    (flattenSegs m).map (fun e => (k :: e.1, e.2)) ++ flattenSegs rest
  | (k, v) :: rest => ([k], jsToString v) :: flattenSegs rest
termination_by l => sizeOf l
decreasing_by all_goals simp <;> omega

/-- Rendering a nonempty segment list as a dot-path. -/
def joinDot : List String → String
  | [] => ""
  | [k] => k
  | k :: rest => k ++ "." ++ joinDot rest

/-- A key usable as one dot-path segment: nonempty, holding no dot, and
not one of the segment names dot-prop refuses. -/
def plainKey (k : String) : Prop :=
  k ≠ "" ∧ '.' ∉ k.data ∧ disallowedKey k = false

/-- Nested mappings on which the round trip is claimed: string leaves,
plain keys, no duplicate key at a level, no empty sub-mapping. -/
inductive GoodVal : JVal → Prop where
  | str (s : String) : GoodVal (JVal.str s)
  | obj (m : List (String × JVal)) (hne : m ≠ [])
      (hnd : (m.map Prod.fst).Nodup)
      (hk : ∀ e ∈ m, plainKey e.1)
      (hv : ∀ e ∈ m, GoodVal e.2) : GoodVal (JVal.obj m)

/-- The entry lists of good mappings. -/
def GoodEntries (m : List (String × JVal)) : Prop :=
  (m.map Prod.fst).Nodup ∧ (∀ e ∈ m, plainKey e.1) ∧ ∀ e ∈ m, GoodVal e.2

theorem splitSepChars_append_sep (sep : Char) (xs ys acc : List Char) :
    splitSepChars sep (xs ++ sep :: ys) acc
      = splitSepChars sep xs acc ++ splitSepChars sep ys [] := by
  induction xs generalizing acc with
  | nil => simp [splitSepChars]
  | cons c xs ih =>
    by_cases hc : c = sep
    · subst hc
      simp [splitSepChars, ih]
    · simp [splitSepChars, hc, ih]

theorem splitSepChars_no_sep (sep : Char) (ys : List Char) (acc : List Char) (h : sep ∉ ys) :
    splitSepChars sep ys acc = [acc.reverse ++ ys] := by
  induction ys generalizing acc with
  | nil => simp [splitSepChars]
  | cons c ys ih =>
    have hc : ¬ c = sep := fun hcc => h (hcc ▸ List.mem_cons_self c ys)
    have hys : sep ∉ ys := fun hm => h (List.mem_cons_of_mem c hm)
    simp [splitSepChars, hc, ih (c :: acc) hys]

theorem string_mk_data (s : String) : String.mk s.data = s := rfl

theorem splitDot_no_dot (k : String) (h : '.' ∉ k.data) : splitDot k = [k] := by
  simp [splitDot, splitSepChars_no_sep '.' k.data [] h, string_mk_data]

theorem splitDot_joinDot (segs : List String) (hne : segs ≠ [])
    (h : ∀ k ∈ segs, '.' ∉ k.data) : splitDot (joinDot segs) = segs := by
  induction segs with
  | nil => exact absurd rfl hne
  | cons k rest ih =>
    cases rest with
    | nil =>
      simp [joinDot]
      exact splitDot_no_dot k (h k (by simp))
    | cons r rest2 =>
      have hk : '.' ∉ k.data := h k (by simp)
      have hrest : ∀ x ∈ r :: rest2, '.' ∉ x.data := fun x hx => h x (by simp [hx])
      have hjoin : joinDot (k :: r :: rest2) = k ++ "." ++ joinDot (r :: rest2) := by
        simp [joinDot]
      have hdata : (k ++ "." ++ joinDot (r :: rest2)).data
          = k.data ++ '.' :: (joinDot (r :: rest2)).data := by
        simp [String.data_append]
      rw [hjoin]
      unfold splitDot
      rw [hdata, splitSepChars_append_sep, splitSepChars_no_sep '.' k.data [] hk]
      have htail : (splitSepChars '.' (joinDot (r :: rest2)).data []).map
          (fun cs => String.mk cs) = r :: rest2 := ih (by simp) hrest
      simp only [List.map_append, List.map_cons, List.map_nil, List.reverse_nil,
        List.nil_append, string_mk_data]
      rw [htail]
      rfl

theorem joinDot_cons (k : String) (t : List String) (h : t ≠ []) :
    joinDot (k :: t) = k ++ "." ++ joinDot t := by
  cases t with
  | nil => exact absurd rfl h
  | cons r rest => simp [joinDot]

theorem append_dot_ne_empty (a b : String) : a ++ "." ++ b ≠ "" := by
  intro h
  have : (a ++ "." ++ b).data = [] := by rw [h]
  simp [String.data_append] at this

theorem isLeaf_of_ne_obj (v : JVal) (h : ∀ m, v ≠ JVal.obj m) :
    v = JVal.str "" ∨ v ≠ JVal.obj [] := by
  right
  exact h []

theorem flattenSegs_cons_obj (k : String) (m rest : List (String × JVal)) :
    flattenSegs ((k, JVal.obj m) :: rest)
      = (flattenSegs m).map (fun e => (k :: e.1, e.2)) ++ flattenSegs rest := by
  rw [flattenSegs]

theorem flattenSegs_cons_leaf (k : String) (v : JVal) (rest : List (String × JVal))
    (h : ∀ m, v ≠ JVal.obj m) :
    flattenSegs ((k, v) :: rest) = ([k], jsToString v) :: flattenSegs rest := by
  cases v with
  | obj m => exact absurd rfl (h m)
  | str s => rw [flattenSegs] <;> exact fun m hm => by cases hm
  | num n => rw [flattenSegs] <;> exact fun m hm => by cases hm
  | bool b => rw [flattenSegs] <;> exact fun m hm => by cases hm
  | null => rw [flattenSegs] <;> exact fun m hm => by cases hm
  | arr xs => rw [flattenSegs] <;> exact fun m hm => by cases hm

theorem flattenRaw_cons_obj (k : String) (m rest : List (String × JVal)) (pfx : String) :
    flattenRaw ((k, JVal.obj m) :: rest) pfx
      = flattenRaw m (if pfx = "" then k else pfx ++ "." ++ k) ++ flattenRaw rest pfx := by
  rw [flattenRaw]

theorem flattenRaw_cons_leaf (k : String) (v : JVal) (rest : List (String × JVal))
    (pfx : String) (h : ∀ m, v ≠ JVal.obj m) :
    flattenRaw ((k, v) :: rest) pfx
      = ((if pfx = "" then k else pfx ++ "." ++ k), jsToString v) :: flattenRaw rest pfx := by
  cases v with
  | obj m => exact absurd rfl (h m)
  | str s => rw [flattenRaw] <;> exact fun m hm => by cases hm
  | num n => rw [flattenRaw] <;> exact fun m hm => by cases hm
  | bool b => rw [flattenRaw] <;> exact fun m hm => by cases hm
  | null => rw [flattenRaw] <;> exact fun m hm => by cases hm
  | arr xs => rw [flattenRaw] <;> exact fun m hm => by cases hm

theorem flattenSegs_path_ne_nil :
    ∀ entries, ∀ e ∈ flattenSegs entries, e.1 ≠ [] := by
  intro entries
  induction entries using flattenSegs.induct with
  | case1 => simp [flattenSegs]
  | case2 k m rest ihm ihrest =>
    intro e he
    rw [flattenSegs_cons_obj] at he
    rcases List.mem_append.mp he with he | he
    · obtain ⟨e0, _, rfl⟩ := List.mem_map.mp he
      simp
    · exact ihrest e he
  | case3 k v rest hnv ihrest =>
    intro e he
    rw [flattenSegs_cons_leaf k v rest (fun m hm => hnv m hm)] at he
    rcases List.mem_cons.mp he with rfl | he
    · simp
    · exact ihrest e he

theorem flattenRaw_eq_segs :
    ∀ entries (pfx : String), pfx ≠ "" →
      flattenRaw entries pfx
        = (flattenSegs entries).map (fun e => (pfx ++ "." ++ joinDot e.1, e.2)) := by
  intro entries pfx
  induction entries, pfx using flattenRaw.induct with
  | case1 pfx =>
    intro _
    simp [flattenRaw, flattenSegs]
  | case2 k m rest pfx ihm ihrest =>
    intro hpfx
    rw [flattenRaw_cons_obj, flattenSegs_cons_obj, if_neg hpfx]
    rw [dif_neg hpfx] at ihm
    rw [ihm (append_dot_ne_empty pfx k), ihrest hpfx, List.map_append, List.map_map]
    congr 1
    apply List.map_congr_left
    intro e he
    have hne := flattenSegs_path_ne_nil m e he
    simp only [Function.comp]
    rw [joinDot_cons _ _ hne]
    simp [String.append_assoc]
  | case3 k v rest pfx hnv ihrest =>
    intro hpfx
    rw [flattenRaw_cons_leaf k v rest pfx (fun m hm => hnv m hm),
      flattenSegs_cons_leaf k v rest (fun m hm => hnv m hm), if_neg hpfx,
      ihrest hpfx]
    simp [joinDot]

theorem flattenRaw_root_eq_segs :
    ∀ entries, (∀ e ∈ entries, e.1 ≠ "") →
      flattenRaw entries ""
        = (flattenSegs entries).map (fun e => (joinDot e.1, e.2)) := by
  intro entries
  induction entries with
  | nil =>
    intro _
    simp [flattenRaw, flattenSegs]
  | cons e rest ih =>
    intro hk
    obtain ⟨k, v⟩ := e
    have hkne : k ≠ "" := hk (k, v) (by simp)
    have hrest : ∀ e ∈ rest, e.1 ≠ "" := fun e he => hk e (by simp [he])
    cases hv : v with
    | obj m =>
      rw [flattenRaw_cons_obj, flattenSegs_cons_obj, if_pos rfl]
      rw [flattenRaw_eq_segs m k hkne, ih hrest, List.map_append, List.map_map]
      congr 1
      apply List.map_congr_left
      intro e he
      have hne := flattenSegs_path_ne_nil m e he
      simp only [Function.comp]
      rw [joinDot_cons _ _ hne]
    | str s =>
      rw [flattenRaw_cons_leaf k _ rest "" (by intro m hm; cases hm),
        flattenSegs_cons_leaf k _ rest (by intro m hm; cases hm), if_pos rfl, ih hrest]
      simp [joinDot]
    | num n =>
      rw [flattenRaw_cons_leaf k _ rest "" (by intro m hm; cases hm),
        flattenSegs_cons_leaf k _ rest (by intro m hm; cases hm), if_pos rfl, ih hrest]
      simp [joinDot]
    | bool b =>
      rw [flattenRaw_cons_leaf k _ rest "" (by intro m hm; cases hm),
        flattenSegs_cons_leaf k _ rest (by intro m hm; cases hm), if_pos rfl, ih hrest]
      simp [joinDot]
    | null =>
      rw [flattenRaw_cons_leaf k _ rest "" (by intro m hm; cases hm),
        flattenSegs_cons_leaf k _ rest (by intro m hm; cases hm), if_pos rfl, ih hrest]
      simp [joinDot]
    | arr xs =>
      rw [flattenRaw_cons_leaf k _ rest "" (by intro m hm; cases hm),
        flattenSegs_cons_leaf k _ rest (by intro m hm; cases hm), if_pos rfl, ih hrest]
      simp [joinDot]

theorem goodVal_obj_inv {m : List (String × JVal)} (h : GoodVal (JVal.obj m)) :
    m ≠ [] ∧ GoodEntries m := by
  cases h
  rename_i hne hnd hk hv
  exact ⟨hne, hnd, hk, hv⟩

theorem goodEntries_cons {e : String × JVal} {rest : List (String × JVal)}
    (h : GoodEntries (e :: rest)) :
    plainKey e.1 ∧ GoodVal e.2 ∧ e.1 ∉ rest.map Prod.fst ∧ GoodEntries rest := by
  obtain ⟨hnd, hk, hv⟩ := h
  simp only [List.map_cons, List.nodup_cons] at hnd
  exact ⟨hk e (by simp), hv e (by simp),
    hnd.1, hnd.2, fun x hx => hk x (by simp [hx]), fun x hx => hv x (by simp [hx])⟩

theorem flattenSegs_head_mem :
    ∀ entries, ∀ e ∈ flattenSegs entries,
      ∃ k t, e.1 = k :: t ∧ k ∈ entries.map Prod.fst := by
  intro entries
  induction entries using flattenSegs.induct with
  | case1 => simp [flattenSegs]
  | case2 k m rest ihm ihrest =>
    intro e he
    rw [flattenSegs_cons_obj] at he
    rcases List.mem_append.mp he with he | he
    · obtain ⟨e0, _, rfl⟩ := List.mem_map.mp he
      exact ⟨k, e0.1, rfl, by simp⟩
    · obtain ⟨k2, t, ht, hmem⟩ := ihrest e he
      exact ⟨k2, t, ht, by simp [hmem]⟩
  | case3 k v rest hnv ihrest =>
    intro e he
    rw [flattenSegs_cons_leaf k v rest (fun m hm => hnv m hm)] at he
    rcases List.mem_cons.mp he with rfl | he
    · exact ⟨k, [], rfl, by simp⟩
    · obtain ⟨k2, t, ht, hmem⟩ := ihrest e he
      exact ⟨k2, t, ht, by simp [hmem]⟩

theorem flattenSegs_paths_nodup :
    ∀ entries, GoodEntries entries → ((flattenSegs entries).map Prod.fst).Nodup := by
  intro entries
  induction entries using flattenSegs.induct with
  | case1 =>
    intro _
    simp [flattenSegs]
  | case2 k m rest ihm ihrest =>
    intro hgood
    obtain ⟨hk, hv, hknotin, hrest⟩ := goodEntries_cons hgood
    obtain ⟨hmne, hgm⟩ := goodVal_obj_inv hv
    rw [flattenSegs_cons_obj, List.map_append]
    rw [List.nodup_append]
    refine ⟨?_, ihrest hrest, ?_⟩
    · rw [List.map_map]
      have : (Prod.fst ∘ fun e : List String × String => (k :: e.1, e.2))
          = fun e : List String × String => k :: e.1 := rfl
      rw [this]
      have hinner := ihm hgm
      have : (fun e : List String × String => k :: e.1)
          = (fun p : List String => k :: p) ∘ Prod.fst := rfl
      rw [this, ← List.map_map]
      exact hinner.map (fun a b hab => by injection hab)
    · intro p hp hp2
      rw [List.map_map] at hp
      obtain ⟨e0, _, rfl⟩ := List.mem_map.mp hp
      obtain ⟨e1, he1, heq⟩ := List.mem_map.mp hp2
      obtain ⟨k2, t, ht, hmem⟩ := flattenSegs_head_mem rest e1 he1
      rw [ht] at heq
      have : k2 = k := by
        have h2 := congrArg (fun l => List.head? l) heq
        simp at h2
        exact h2
      exact hknotin (this ▸ hmem)
  | case3 k v rest hnv ihrest =>
    intro hgood
    obtain ⟨hk, hv, hknotin, hrest⟩ := goodEntries_cons hgood
    rw [flattenSegs_cons_leaf k v rest (fun m hm => hnv m hm)]
    rw [List.map_cons, List.nodup_cons]
    refine ⟨?_, ihrest hrest⟩
    intro hmem
    obtain ⟨e1, he1, heq⟩ := List.mem_map.mp hmem
    obtain ⟨k2, t, ht, hmem2⟩ := flattenSegs_head_mem rest e1 he1
    rw [ht] at heq
    have hk2 : k2 = k := by
      have := congrArg (fun l => List.head? l) heq
      simpa using this
    exact hknotin (hk2 ▸ hmem2)

theorem flattenSegs_segs_plain :
    ∀ entries, GoodEntries entries →
      ∀ e ∈ flattenSegs entries, ∀ k ∈ e.1, plainKey k := by
  intro entries
  induction entries using flattenSegs.induct with
  | case1 =>
    intro _
    simp [flattenSegs]
  | case2 k m rest ihm ihrest =>
    intro hgood e he
    obtain ⟨hk, hv, _, hrest⟩ := goodEntries_cons hgood
    obtain ⟨_, hgm⟩ := goodVal_obj_inv hv
    rw [flattenSegs_cons_obj] at he
    rcases List.mem_append.mp he with he | he
    · obtain ⟨e0, he0, rfl⟩ := List.mem_map.mp he
      intro x hx
      rcases List.mem_cons.mp hx with rfl | hx
      · exact hk
      · exact ihm hgm e0 he0 x hx
    · exact ihrest hrest e he
  | case3 k v rest hnv ihrest =>
    intro hgood e he
    obtain ⟨hk, _, _, hrest⟩ := goodEntries_cons hgood
    rw [flattenSegs_cons_leaf k v rest (fun m hm => hnv m hm)] at he
    rcases List.mem_cons.mp he with rfl | he
    · intro x hx
      rcases List.mem_cons.mp hx with rfl | hx
      · exact hk
      · simp at hx
    · exact ihrest hrest e he

theorem alookup_append_none {α : Type} (l1 l2 : List (String × α)) (k : String)
    (h1 : alookup l1 k = none) : alookup (l1 ++ l2) k = alookup l2 k := by
  induction l1 with
  | nil => simp
  | cons e rest ih =>
    obtain ⟨k0, v0⟩ := e
    by_cases hk : k0 = k
    · simp [alookup, hk] at h1
    · simp [alookup, hk] at h1 ⊢
      exact ih h1

theorem foldl_aset_append {α : Type} :
    ∀ (pairs : List (String × α)) (acc : List (String × α)),
      (pairs.map Prod.fst).Nodup → (∀ e ∈ pairs, alookup acc e.1 = none) →
      pairs.foldl (fun a e => aset a e.1 e.2) acc = acc ++ pairs := by
  intro pairs
  induction pairs with
  | nil => simp
  | cons e rest ih =>
    intro acc hnd hnone
    obtain ⟨k, v⟩ := e
    simp only [List.map_cons, List.nodup_cons] at hnd
    have hknone : alookup acc k = none := hnone (k, v) (by simp)
    rw [List.foldl_cons]
    have hset : aset acc k v = acc ++ [(k, v)] := aset_append_of_not_mem acc k v hknone
    rw [hset, ih (acc ++ [(k, v)]) hnd.2 ?_, List.append_assoc]
    · rfl
    · intro e2 he2
      have hne : e2.1 ≠ k := by
        intro hcontra
        exact hnd.1 (hcontra ▸ List.mem_map_of_mem Prod.fst he2)
      rw [alookup_append_none _ _ _ (hnone e2 (by simp [he2]))]
      simp [alookup, hne.symm]

theorem flatten_eq_flattenRaw (entries : List (String × JVal)) (h : GoodEntries entries) :
    flatten entries "" = flattenRaw entries "" := by
  obtain ⟨hnd, hk, hv⟩ := h
  have hkeys : ∀ e ∈ entries, e.1 ≠ "" := fun e he => (hk e he).1
  have hroot := flattenRaw_root_eq_segs entries hkeys
  have hplain := flattenSegs_segs_plain entries ⟨hnd, hk, hv⟩
  have hne := flattenSegs_path_ne_nil entries
  have hpathsnd := flattenSegs_paths_nodup entries ⟨hnd, hk, hv⟩
  have hmapnd : ((flattenRaw entries "").map Prod.fst).Nodup := by
    rw [hroot, List.map_map]
    have heq : (Prod.fst ∘ fun e : List String × String => (joinDot e.1, e.2))
        = joinDot ∘ Prod.fst := rfl
    rw [heq, ← List.map_map]
    apply List.Nodup.map_on ?_ hpathsnd
    intro x hx y hy hxy
    obtain ⟨ex, hex, rfl⟩ := List.mem_map.mp hx
    obtain ⟨ey, hey, rfl⟩ := List.mem_map.mp hy
    have hx1 : splitDot (joinDot ex.1) = ex.1 :=
      splitDot_joinDot ex.1 (hne ex hex) (fun k hk2 => (hplain ex hex k hk2).2.1)
    have hy1 : splitDot (joinDot ey.1) = ey.1 :=
      splitDot_joinDot ey.1 (hne ey hey) (fun k hk2 => (hplain ey hey k hk2).2.1)
    rw [← hx1, ← hy1, hxy]
  unfold flatten
  rw [foldl_aset_append (flattenRaw entries "") [] hmapnd (by intro e _; rfl)]
  rfl

/-- Folding the setPathSegs descent over a list of (segments, value)
leaves, the core of unflatten once paths are split. -/
def insAllSegs (acc : List (String × JVal)) (l : List (List String × String)) :
    List (String × JVal) :=
  l.foldl (fun a e => setPathSegs a e.1 (JVal.str e.2)) acc

theorem insAllSegs_append (acc : List (String × JVal)) (l1 l2 : List (List String × String)) :
    insAllSegs acc (l1 ++ l2) = insAllSegs (insAllSegs acc l1) l2 :=
  List.foldl_append _ _ _ _

theorem setPathSegs_cons2_obj (o m : List (String × JVal)) (k s : String)
    (t : List String) (v : JVal) (h : alookup o k = some (JVal.obj m)) :
    setPathSegs o (k :: s :: t) v = aset o k (JVal.obj (setPathSegs m (s :: t) v)) := by
  rw [setPathSegs, h]

theorem setPathSegs_cons2_none (o : List (String × JVal)) (k s : String)
    (t : List String) (v : JVal) (h : alookup o k = none) :
    setPathSegs o (k :: s :: t) v = aset o k (JVal.obj (setPathSegs [] (s :: t) v)) := by
  rw [setPathSegs, h]

theorem insAllSegs_block :
    ∀ (l : List (List String × String)) (acc m : List (String × JVal)) (k : String),
      (∀ e ∈ l, ∃ s t, e.1 = k :: s :: t) →
      alookup acc k = some (JVal.obj m) →
      insAllSegs acc l
        = aset acc k (JVal.obj (insAllSegs m (l.map (fun e => (e.1.drop 1, e.2))))) := by
  intro l
  induction l with
  | nil =>
    intro acc m k _ hlk
    simp only [insAllSegs, List.foldl_nil, List.map_nil]
    exact (aset_eq_of_alookup acc k (JVal.obj m) hlk).symm
  | cons e rest ih =>
    intro acc m k hshape hlk
    obtain ⟨s, t, ht⟩ := hshape e (by simp)
    simp only [insAllSegs, List.foldl_cons, List.map_cons]
    rw [ht, setPathSegs_cons2_obj acc m k s t _ hlk]
    have hstep := ih (aset acc k (JVal.obj (setPathSegs m (s :: t) (JVal.str e.2))))
      (setPathSegs m (s :: t) (JVal.str e.2)) k
      (fun e2 he2 => hshape e2 (by simp [he2]))
      (alookup_aset_self acc k _)
    simp only [insAllSegs] at hstep
    rw [hstep, aset_aset_self]
    simp [insAllSegs]

theorem flattenSegs_ne_nil :
    ∀ entries, GoodEntries entries → entries ≠ [] → flattenSegs entries ≠ [] := by
  intro entries
  induction entries using flattenSegs.induct with
  | case1 =>
    intro _ hne
    exact absurd rfl hne
  | case2 k m rest ihm ihrest =>
    intro hgood _
    obtain ⟨_, hv, _, _⟩ := goodEntries_cons hgood
    obtain ⟨hmne, hgm⟩ := goodVal_obj_inv hv
    rw [flattenSegs_cons_obj]
    intro hcontra
    rcases List.append_eq_nil.mp hcontra with ⟨h1, _⟩
    exact ihm hgm hmne (List.map_eq_nil_iff.mp h1)
  | case3 k v rest hnv ihrest =>
    intro _ _
    rw [flattenSegs_cons_leaf k v rest (fun m hm => hnv m hm)]
    simp

theorem insAllSegs_flattenSegs :
    ∀ entries, GoodEntries entries →
      ∀ acc, (∀ e ∈ entries, alookup acc e.1 = none) →
      insAllSegs acc (flattenSegs entries) = acc ++ entries := by
  intro entries
  induction entries using flattenSegs.induct with
  | case1 =>
    intro _ acc _
    simp [flattenSegs, insAllSegs]
  | case2 k m rest ihm ihrest =>
    intro hgood acc hnone
    obtain ⟨hkp, hv, hknotin, hrest⟩ := goodEntries_cons hgood
    obtain ⟨hmne, hgm⟩ := goodVal_obj_inv hv
    have hklook : alookup acc k = none := hnone (k, JVal.obj m) (by simp)
    rw [flattenSegs_cons_obj, insAllSegs_append]
    have hfne := flattenSegs_ne_nil m hgm hmne
    obtain ⟨e0, ms, hms⟩ : ∃ e0 ms, flattenSegs m = e0 :: ms := by
      cases hcase : flattenSegs m with
      | nil => exact absurd hcase hfne
      | cons a b => exact ⟨a, b, rfl⟩
    have he0 : e0 ∈ flattenSegs m := by rw [hms]; simp
    obtain ⟨s, t, hst⟩ : ∃ s t, e0.1 = s :: t := by
      cases hcase : e0.1 with
      | nil => exact absurd hcase (flattenSegs_path_ne_nil m e0 he0)
      | cons a b => exact ⟨a, b, rfl⟩
    have hblock : insAllSegs acc ((flattenSegs m).map (fun e => (k :: e.1, e.2)))
        = acc ++ [(k, JVal.obj m)] := by
      rw [hms, List.map_cons]
      simp only [insAllSegs, List.foldl_cons]
      rw [hst, setPathSegs_cons2_none acc k s t _ hklook]
      have hstep := insAllSegs_block (ms.map (fun e => (k :: e.1, e.2)))
        (aset acc k (JVal.obj (setPathSegs [] (s :: t) (JVal.str e0.2))))
        (setPathSegs [] (s :: t) (JVal.str e0.2)) k
        ?_ (alookup_aset_self acc k _)
      · simp only [insAllSegs] at hstep
        rw [hstep, aset_aset_self]
        have htails : (ms.map (fun e => (k :: e.1, e.2))).map (fun e => (e.1.drop 1, e.2))
            = ms := by
          rw [List.map_map]
          have hcomp : ((fun e : List String × String => (e.1.drop 1, e.2))
              ∘ fun e : List String × String => (k :: e.1, e.2)) = id := by
            funext e
            simp
          rw [hcomp, List.map_id]
        rw [htails]
        have hinner : insAllSegs (setPathSegs [] (s :: t) (JVal.str e0.2)) ms
            = insAllSegs [] (flattenSegs m) := by
          rw [hms]
          simp only [insAllSegs, List.foldl_cons]
          rw [hst]
        simp only [insAllSegs] at hinner
        rw [hinner]
        have hm := ihm hgm [] (by intro e _; rfl)
        simp only [insAllSegs] at hm
        rw [hm, List.nil_append,
          aset_append_of_not_mem acc k (JVal.obj m) hklook]
      · intro e2 he2
        obtain ⟨e3, he3, rfl⟩ := List.mem_map.mp he2
        have he3m : e3 ∈ flattenSegs m := by rw [hms]; simp [he3]
        obtain ⟨s2, t2, hst2⟩ : ∃ s2 t2, e3.1 = s2 :: t2 := by
          cases hcase : e3.1 with
          | nil => exact absurd hcase (flattenSegs_path_ne_nil m e3 he3m)
          | cons a b => exact ⟨a, b, rfl⟩
        exact ⟨s2, t2, by simp [hst2]⟩
    rw [hblock]
    have hknotin2 : k ∉ List.map Prod.fst rest := hknotin
    have hrestlook : ∀ e ∈ rest, alookup (acc ++ [(k, JVal.obj m)]) e.1 = none := by
      intro e he
      have hne2 : e.1 ≠ k := by
        intro hcontra
        exact hknotin2 (hcontra ▸ List.mem_map_of_mem Prod.fst he)
      rw [alookup_append_none _ _ _ (hnone e (by simp [he]))]
      simp [alookup, Ne.symm hne2]
    rw [ihrest hrest (acc ++ [(k, JVal.obj m)]) hrestlook, List.append_assoc]
    rfl
  | case3 k v rest hnv ihrest =>
    intro hgood acc hnone
    obtain ⟨hkp, hv, hknotin, hrest⟩ := goodEntries_cons hgood
    have hstr : ∃ s, v = JVal.str s := by
      cases hv with
      | str s => exact ⟨s, rfl⟩
      | obj m => exact absurd rfl (hnv _)
    obtain ⟨s, rfl⟩ := hstr
    have hklook : alookup acc k = none := hnone (k, JVal.str s) (by simp)
    rw [flattenSegs_cons_leaf k _ rest (fun m hm => by cases hm)]
    simp only [insAllSegs, List.foldl_cons]
    have : setPathSegs acc [k] (JVal.str (jsToString (JVal.str s))) = aset acc k (JVal.str s) := by
      rw [setPathSegs]
      simp [jsToString]
    rw [this, aset_append_of_not_mem acc k _ hklook]
    have hknotin2 : k ∉ List.map Prod.fst rest := hknotin
    have hrestlook : ∀ e ∈ rest, alookup (acc ++ [(k, JVal.str s)]) e.1 = none := by
      intro e he
      have hne2 : e.1 ≠ k := by
        intro hcontra
        exact hknotin2 (hcontra ▸ List.mem_map_of_mem Prod.fst he)
      rw [alookup_append_none _ _ _ (hnone e (by simp [he]))]
      simp [alookup, Ne.symm hne2]
    have := ihrest hrest (acc ++ [(k, JVal.str s)]) hrestlook
    simp only [insAllSegs] at this
    rw [this, List.append_assoc]
    rfl

theorem unflatten_segs_map :
    ∀ (l : List (List String × String)) (acc : List (String × JVal)),
      (∀ e ∈ l, e.1 ≠ [] ∧ ∀ k ∈ e.1, plainKey k) →
      (l.map (fun e => (joinDot e.1, e.2))).foldl
          (fun a e => setProperty a e.1 (JVal.str e.2)) acc
        = insAllSegs acc l := by
  intro l
  induction l with
  | nil =>
    intro acc _
    simp [insAllSegs]
  | cons e rest ih =>
    intro acc hp
    obtain ⟨hne, hplain⟩ := hp e (by simp)
    simp only [List.map_cons, List.foldl_cons]
    have hsplit : splitDot (joinDot e.1) = e.1 :=
      splitDot_joinDot e.1 hne (fun k hk => (hplain k hk).2.1)
    have hprop : setProperty acc (joinDot e.1) (JVal.str e.2)
        = setPathSegs acc e.1 (JVal.str e.2) := by
      unfold setProperty
      rw [hsplit]
      have hnodis : e.1.any disallowedKey = false := by
        rw [List.any_eq_false]
        intro k hk
        simp [(hplain k hk).2.2]
      show (if e.1.any disallowedKey = true then acc else setPathSegs acc e.1 (JVal.str e.2))
          = setPathSegs acc e.1 (JVal.str e.2)
      rw [hnodis]
      simp
    rw [hprop, ih _ (fun e2 he2 => hp e2 (by simp [he2]))]
    rfl

theorem unflatten_flatten (entries : List (String × JVal)) (h : GoodEntries entries) :
    unflatten (flatten entries "") = entries := by
  obtain ⟨hnd, hk, hv⟩ := h
  rw [flatten_eq_flattenRaw entries ⟨hnd, hk, hv⟩,
    flattenRaw_root_eq_segs entries (fun e he => (hk e he).1)]
  unfold unflatten
  rw [unflatten_segs_map (flattenSegs entries) []
    (fun e he => ⟨flattenSegs_path_ne_nil entries e he,
      fun k hk2 => flattenSegs_segs_plain entries ⟨hnd, hk, hv⟩ e he k hk2⟩)]
  exact insAllSegs_flattenSegs entries ⟨hnd, hk, hv⟩ [] (fun e _ => rfl)

/-! ## src/types/index.ts -/

/-- Content encoding of a FilePayload: utf-8 text (the default, stored as
an absent field) or base64 for binary files. -/
inductive Encoding : Type where
  | utf8 : Encoding
  | base64 : Encoding
deriving DecidableEq

/-- FilePayload of types/index.ts: the unit exchanged with Bitwarden. -/
structure FilePayload : Type where
  path : String
  content : Option String := none
  keys : Option (List (String × String)) := none
  mode : Option Nat := none
  encoding : Option Encoding := none
deriving DecidableEq

/-- ManagedFile of types/index.ts, as validateConfig returns it: the keys
array is kept as the raw parsed values (the source never checks the
element type of the array). -/
structure ManagedFile : Type where
  path : String
  keys : Option (List JVal) := none
  machine : Option Bool := none

/-- BwrssConfig of types/index.ts (the ignoredFiles field plays no part
in the claims under study and is omitted from the model). -/
structure BwrssConfig : Type where
  version : Int
  name : Option String := none
  files : List ManagedFile
deriving Inhabited

/-! ## src/core/config.ts -/

/-- The per-file validation loop of validateConfig: the first file entry
that is not an object carrying a string path, or that carries a defined
non-array keys field, raises the corresponding ConfigError.  (The source
interpolates the offending path into the message; the message text is
abbreviated here.) -/
def checkFiles : List JVal → Except String Unit
  | [] => Except.ok ()
  | JVal.obj fm :: rest =>
    match alookup fm "path" with
    | some (JVal.str _) =>
      match alookup fm "keys" with
      | none => checkFiles rest
      | some (JVal.arr _) => checkFiles rest
      | some _ => Except.error "Invalid .bwrss config: keys must be an array"
    | _ => Except.error "Invalid .bwrss config: each file must have a path string"
  | _ :: _ => Except.error "Invalid .bwrss config: each file must have a path string"

/-- The mapping step of validateConfig over an already-checked file entry:
copy path, spread keys when the field is truthy (validated keys fields
are arrays, and every array is truthy in JS, the empty one included).
No other field is copied, so the machine flag of the entry is dropped. -/
def toManagedFile (f : JVal) : ManagedFile :=
  match f with
  | JVal.obj fm =>
    { path := match alookup fm "path" with
        | some (JVal.str s) => s
        | _ => ""
      keys := match alookup fm "keys" with
        | some (JVal.arr ks) => some ks
        | _ => none
      machine := none }
  | _ => { path := "", keys := none, machine := none }

/-- validateConfig of config.ts.  A parsed array passes the JS
object-typeness test but has an undefined version, so it fails the
version check; null and primitives fail the object test. -/
def validateConfig (obj : JVal) : Except String BwrssConfig :=
  match obj with
  | JVal.obj config =>
    match alookup config "version" with
    | some (JVal.num 1) =>
      match alookup config "files" with
      | some (JVal.arr files) =>
        match checkFiles files with
        | Except.ok _ =>
          Except.ok
            { version := 1
              name := match alookup config "name" with
                | some (JVal.str s) => some s
                | _ => none
              files := files.map toManagedFile }
        | Except.error e => Except.error e
      | _ => Except.error "Invalid .bwrss config: files must be an array"
    | _ => Except.error "Unsupported .bwrss config version"
  | JVal.arr _ => Except.error "Unsupported .bwrss config version"
  | _ => Except.error "Invalid .bwrss config: not an object"

/-! ## src/core/sync.ts -/

/-- Result of splitByMachine. -/
structure SplitPayloads : Type where
  shared : List FilePayload
  machine : List FilePayload
deriving DecidableEq

/-- splitByMachine of sync.ts: the machineFiles set holds the paths of
the config entries with a truthy machine flag; the loop sends each
payload, in order, to the machine list when its path is in the set and
to the shared list otherwise (written as the two order-preserving
filters the loop computes). -/
def splitByMachine (config : BwrssConfig) (payloads : List FilePayload) : SplitPayloads :=
  let machineFiles := (config.files.filter (fun f => f.machine.getD false)).map (fun f => f.path)
  { shared := payloads.filter (fun p => !(machineFiles.contains p.path))
    machine := payloads.filter (fun p => machineFiles.contains p.path) }

/-- The loop of mergePayloads with the machineByPath map as state: a
shared payload whose path is in the map is replaced by the map's payload
(which is then deleted), others pass through; the map's remaining values
are appended in insertion order. -/
def mergeGo : List (String × FilePayload) → List FilePayload → List FilePayload
  | mp, [] => mp.map Prod.snd
  | mp, p :: rest =>
    match alookup mp p.path with
    | some q => q :: mergeGo (aerase mp p.path) rest
    | none => p :: mergeGo mp rest

/-- mergePayloads of sync.ts: build the Map from the machine list (later
entries with the same path overwrite earlier ones in place, as Map.set
does), then run the replacement loop over the shared list. -/
def mergePayloads (shared machine : List FilePayload) : List FilePayload :=
  mergeGo (machine.foldl (fun m p => aset m p.path p) []) shared

/-! ## src/parsers/index.ts -/

/-- The four parser capability objects of src/parsers. -/
inductive ParserId : Type where
  | ini : ParserId
  | json : ParserId
  | yaml : ParserId
  | toml : ParserId
deriving DecidableEq

/-- The extensions field each parser declares. -/
def parserExtensions : ParserId → List String
  | ParserId.ini => [".env"]
  | ParserId.json => [".json"]
  | ParserId.yaml => [".yaml", ".yml"]
  | ParserId.toml => [".toml"]

/-- The parsers array of parsers/index.ts, in registration order. -/
def parsers : List ParserId := [ParserId.ini, ParserId.json, ParserId.yaml, ParserId.toml]

/-- State of node's posix extname scan: (startDot, startPart, endIdx,
matchedSlash, preDotState), exactly the five loop variables of node's
path.extname. -/
structure ExtnameState : Type where
  startDot : Int := -1
  startPart : Int := 0
  endIdx : Int := -1
  matchedSlash : Bool := true
  preDotState : Int := 0

/-- The backwards scan loop of node's path.posix.extname, over the
reversed character list with the current index. -/
def extnameScan : List Char → Int → ExtnameState → ExtnameState
  | [], _, st => st
  | c :: rest, i, st =>
    if c = '/' then
      if !st.matchedSlash then { st with startPart := i + 1 }
      else extnameScan rest (i - 1) st
    else
      let st1 := if st.endIdx = -1 then { st with matchedSlash := false, endIdx := i + 1 } else st
      if c = '.' then
        if st1.startDot = -1 then extnameScan rest (i - 1) { st1 with startDot := i }
        else if st1.preDotState ≠ 1 then extnameScan rest (i - 1) { st1 with preDotState := 1 }
        else extnameScan rest (i - 1) st1
      else
        if st1.startDot ≠ -1 then extnameScan rest (i - 1) { st1 with preDotState := -1 }
        else extnameScan rest (i - 1) st1

/-- node path.posix.extname: scan from the end, then return the slice
from the last dot unless the dot pattern is one of the no-extension
shapes (no dot, leading dot of the base name, or a bare ".." part). -/
def extname (path : String) : String :=
  let st := extnameScan path.data.reverse ((path.data.length : Int) - 1) {}
  if st.startDot = -1 ∨ st.endIdx = -1 ∨ st.preDotState = 0 ∨
      (st.preDotState = 1 ∧ st.startDot = st.endIdx - 1 ∧ st.startDot = st.startPart + 1) then
    ""
  else
    String.mk ((path.data.drop st.startDot.toNat).take (st.endIdx - st.startDot).toNat)

/-- ASCII lowering of one character, the effect of toLowerCase on the
extension strings compared here (all plain ASCII). -/
def lowerAscii (c : Char) : Char :=
  if c.isUpper then Char.ofNat (c.toNat + 32) else c

/-- String.prototype.toLowerCase over the ASCII range. -/
def toLowerStr (s : String) : String :=
  String.mk (s.data.map lowerAscii)

/-- getParser of parsers/index.ts: a base name starting with ".env" is
always routed to the INI parser; otherwise the first parser whose
declared extensions contain the lowercased extension wins, and none
matches an unknown extension. -/
def getParser (filePath : String) : Option ParserId :=
  let base := String.mk ((splitSepChars '/' filePath.data []).getLastD [])
  if ".env".data.isPrefixOf base.data then some ParserId.ini
  else parsers.find? (fun p => (parserExtensions p).contains (toLowerStr (extname filePath)))

/-! ## src/parsers/json.ts -/

/-- The whitespace class of the regex used by detectJsonIndent. -/
def jsWhitespace (c : Char) : Bool :=
  c = ' ' ∨ c = '\t' ∨ c = '\n' ∨ c = '\r' ∨ c = '\x0b' ∨ c = '\x0c'

/-- detectJsonIndent of json.ts.  The source runs content.match on the
multiline regex of leading whitespace followed by one non-whitespace
character; String.match returns the leftmost match, which starts at
position 0 whenever the content holds any non-whitespace character, so
the matched text is always the content's own leading whitespace run plus
its first non-whitespace character, and the first indented line is never
consulted.  spaces = match length - 1 = that leading run's length. -/
def detectJsonIndent (content : String) : Nat :=
  if content.data.all jsWhitespace then 2
  else
    let spaces := (content.data.takeWhile jsWhitespace).length
    if spaces > 0 then spaces else 2

/-- Modelled from the spec: the indentation detection the spec describes,
"count of leading spaces before the first non-whitespace character on an
indented line; default to 2 spaces if no indentation is found", used to
compare the code's behaviour against the specified one. -/
def specIndentWidth (content : String) : Nat :=
  let lines := (splitSepChars '\n' content.data []).map (fun cs => String.mk cs)
  match lines.find? (fun l =>
      decide ((l.data.takeWhile (fun c => c = ' ')).length > 0
        ∧ l.data.any (fun c => !(jsWhitespace c)))) with
  | some l => (l.data.takeWhile (fun c => c = ' ')).length
  | none => 2

/-! ## src/commands/save.ts -/

/-- isBinary of save.ts: a zero byte within the first 8 KiB. -/
def isBinary (buf : List Nat) : Bool :=
  (buf.take 8192).contains 0

/-- The per-file FilePayload construction of saveCommand, for a file that
exists: with a nonempty keys filter and an available parser the payload
carries the extracted keys; otherwise it carries the full content, base64
encoded when the buffer looks binary.  The text decodings and the
parser's extract are taken as parameters (their values do not influence
which fields are set). -/
def savePayloadFor (utf8 b64 : List Nat → String)
    (extractFn : ParserId → String → List JVal → List (String × String))
    (f : ManagedFile) (mode : Nat) (buf : List Nat) : FilePayload :=
  let binary := isBinary buf
  let fullFile : FilePayload :=
    { path := f.path
      content := some (if binary then b64 buf else utf8 buf)
      keys := none
      mode := some mode
      encoding := if binary then some Encoding.base64 else none }
  match f.keys with
  | some ks =>
    if ks.length > 0 then
      match getParser f.path with
      | none => fullFile
      | some parser =>
        { path := f.path
          content := none
          keys := some (extractFn parser (utf8 buf) ks)
          mode := some mode
          encoding := none }
    else fullFile
  | none => fullFile

/-! ## Line splitting and joining (String.split("\n") / Array.join("\n")) -/

/-- Joining character-list segments with a separator character,
Array.prototype.join at the character level. -/
def joinCharSegs (sep : Char) : List (List Char) → List Char
  | [] => []
  | [l] => l
  | l :: rest => l ++ sep :: joinCharSegs sep rest

theorem joinCharSegs_cons (sep : Char) (l : List Char) (rest : List (List Char))
    (h : rest ≠ []) : joinCharSegs sep (l :: rest) = l ++ sep :: joinCharSegs sep rest := by
  cases rest with
  | nil => exact absurd rfl h
  | cons r rs => simp [joinCharSegs]

theorem splitSepChars_ne_nil (sep : Char) :
    ∀ cs acc, splitSepChars sep cs acc ≠ [] := by
  intro cs
  induction cs with
  | nil =>
    intro acc
    simp [splitSepChars]
  | cons c rest ih =>
    intro acc
    by_cases hc : c = sep
    · simp [splitSepChars, hc]
    · simp only [splitSepChars, if_neg hc]
      exact ih (c :: acc)

theorem joinCharSegs_splitSepChars (sep : Char) :
    ∀ cs acc, joinCharSegs sep (splitSepChars sep cs acc) = acc.reverse ++ cs := by
  intro cs
  induction cs with
  | nil =>
    intro acc
    simp [splitSepChars, joinCharSegs]
  | cons c rest ih =>
    intro acc
    by_cases hc : c = sep
    · rw [splitSepChars]
      simp only [if_pos hc]
      rw [joinCharSegs_cons _ _ _ (splitSepChars_ne_nil sep rest [])]
      rw [ih []]
      simp [hc]
    · rw [splitSepChars]
      simp only [if_neg hc]
      rw [ih (c :: acc)]
      simp

/-- Array.prototype.join with a one-character separator on strings. -/
def joinStrSep (sep : Char) (l : List String) : String :=
  String.mk (joinCharSegs sep (l.map String.data))

/-- String.prototype.split("\n"). -/
def splitLines (s : String) : List String :=
  (splitSepChars '\n' s.data []).map (fun cs => String.mk cs)

/-- Array.prototype.join("\n"). -/
def joinLines (l : List String) : String :=
  joinStrSep '\n' l

theorem joinLines_splitLines (c : String) : joinLines (splitLines c) = c := by
  unfold joinLines joinStrSep splitLines
  rw [List.map_map]
  have : (String.data ∘ fun cs : List Char => String.mk cs) = id := by
    funext cs
    rfl
  rw [this, List.map_id, joinCharSegs_splitSepChars]
  simp [string_mk_data]

theorem splitLines_joinLines :
    ∀ L : List String, L ≠ [] → (∀ l ∈ L, '\n' ∉ l.data) →
      splitLines (joinLines L) = L := by
  intro L
  induction L with
  | nil => exact fun h _ => absurd rfl h
  | cons l rest ih =>
    intro _ hnl
    cases rest with
    | nil =>
      unfold splitLines joinLines joinStrSep
      simp only [List.map_cons, List.map_nil, joinCharSegs, string_mk_data]
      rw [splitSepChars_no_sep '\n' l.data [] (hnl l (by simp))]
      simp [string_mk_data]
    | cons r rs =>
      have hl : '\n' ∉ l.data := hnl l (by simp)
      have hrest : ∀ x ∈ r :: rs, '\n' ∉ x.data := fun x hx => hnl x (by simp [hx])
      unfold splitLines joinLines joinStrSep
      simp only [List.map_cons, string_mk_data]
      rw [joinCharSegs_cons '\n' _ _ (by simp)]
      rw [splitSepChars_append_sep, splitSepChars_no_sep '\n' l.data [] hl]
      have htail := ih (by simp) hrest
      unfold splitLines joinLines joinStrSep at htail
      simp only [string_mk_data] at htail
      simp only [List.map_append, List.map_cons, List.map_nil, List.reverse_nil,
        List.nil_append, string_mk_data]
      rw [List.map_cons] at htail
      rw [htail]
      rfl

/-! ## src/parsers/ini.ts -/

/-- JS String.prototype.trim at the character level (ASCII whitespace). -/
def trimChars (cs : List Char) : List Char :=
  ((cs.dropWhile jsWhitespace).reverse.dropWhile jsWhitespace).reverse

/-- The per-line analysis both iniParser.parse and iniParser.merge run:
trim; blank and comment lines (and lines without an equals sign) pass
through; an assignment line yields the trimmed key and trimmed value. -/
inductive LineKind : Type where
  | pass : LineKind
  | assign : String → String → LineKind
deriving DecidableEq

/-- Classify one line exactly as the loop bodies of ini.ts do. -/
def lineKind (line : String) : LineKind :=
  let t := trimChars line.data
  if t = [] then LineKind.pass
  else if t.headD ' ' = '#' then LineKind.pass
  else match t.findIdx? (fun c => c = '=') with
    | none => LineKind.pass
    | some i => LineKind.assign (String.mk (trimChars (t.take i)))
        (String.mk (trimChars (t.drop (i + 1))))

/-- Quote stripping of ini.ts parse: one level of a matching pair of
double or single quotes (a single quote character both starts and ends
itself, so a lone quote strips to the empty value, as in the source). -/
def stripQuotes (v : String) : String :=
  let cs := v.data
  if (cs.head? = some '"' ∧ cs.getLast? = some '"')
      ∨ (cs.head? = some '\'' ∧ cs.getLast? = some '\'') then
    String.mk ((cs.drop 1).dropLast)
  else v

namespace iniParser

/-- The loop body of iniParser.parse: record an assignment's trimmed key
and quote-stripped trimmed value into the result object. -/
def parseStep (result : List (String × String)) (line : String) : List (String × String) :=
  match lineKind line with
  | LineKind.pass => result
  | LineKind.assign k v => aset result k (stripQuotes v)

/-- iniParser.parse: walk the lines, recording each assignment (a later
duplicate key overwrites the value in place). -/
def parse (content : String) : List (String × String) :=
  (splitLines content).foldl parseStep []

/-- The line loop of iniParser.merge, carrying the remaining key map:
an assignment line whose key is pending is rewritten as key=value and the
key removed from the pending map; every other line passes through. -/
def mergeLines : List String → List (String × String) → List String × List (String × String)
  | [], rem => ([], rem)
  | line :: rest, rem =>
    match lineKind line with
    | LineKind.pass =>
      let r := mergeLines rest rem
      (line :: r.1, r.2)
    | LineKind.assign k _ =>
      match alookup rem k with
      | some v =>
        let r := mergeLines rest (aerase rem k)
        ((k ++ "=" ++ v) :: r.1, r.2)
      | none =>
        let r := mergeLines rest rem
        (line :: r.1, r.2)

/-- iniParser.merge: run the line loop, then append the still-pending
keys as new key=value lines, and join with newlines. -/
def merge (existingContent : String) (keys : List (String × String)) : String :=
  let r := mergeLines (splitLines existingContent) keys
  joinLines (r.1 ++ r.2.map (fun e => e.1 ++ "=" ++ e.2))

end iniParser

/-! ## src/parsers/yaml.ts

yamlParser.merge delegates to the yaml library: parseDocument to a
comment-preserving document, setIn for each dot path, toString.  The
library itself is not part of this repository; the document model below
is modelled from the spec: "parse the existing text into an editable
document representation that retains comments, blank lines, and key
ordering, then set each (path, value) in place via the document's own
in-place path-setter, and re-render". -/

/-- Modelled from the spec: one mapping line of the document model, with
its indentation, key, computed dot-path, parsed scalar value, and the
original line text, re-rendered verbatim while the value is untouched. -/
structure YEntry : Type where
  indent : Nat
  key : String
  path : List String
  value : String
  raw : String
deriving DecidableEq

/-- Modelled from the spec: a document node is either a passthrough line
(comment, blank, or any non-mapping line), kept verbatim, or a mapping
entry. -/
inductive YNode : Type where
  | pass : String → YNode
  | entry : YEntry → YNode
deriving DecidableEq

/-- Shape of one line: none for comment/blank/non-mapping lines, or the
(indent, key, value) of a "key: value" mapping line. -/
def lineShape (line : String) : Option (Nat × String × String) :=
  let t := trimChars line.data
  if t = [] then none
  else if t.headD ' ' = '#' then none
  else match t.findIdx? (fun c => c = ':') with
    | none => none
    | some i =>
      some ((line.data.takeWhile (fun c => c = ' ')).length,
        String.mk (trimChars (t.take i)), String.mk (trimChars (t.drop (i + 1))))

/-- Pop the indentation stack down to the levels strictly shallower than
the new entry's indentation. -/
def popGE : List (Nat × String) → Nat → List (Nat × String)
  | [], _ => []
  | (i, k) :: rest, ind => if ind ≤ i then popGE rest ind else (i, k) :: rest

/-- Modelled from the spec: parsing the text into the document model,
assigning each mapping line its dot-path from the indentation stack. -/
def parseDocGo : List String → List (Nat × String) → List YNode
  | [], _ => []
  | line :: rest, stack =>
    match lineShape line with
    | none => YNode.pass line :: parseDocGo rest stack
    | some (ind, k, v) =>
      let stack2 := popGE stack ind
      YNode.entry
        { indent := ind, key := k, path := (stack2.map Prod.snd).reverse ++ [k],
          value := v, raw := line }
        :: parseDocGo rest ((ind, k) :: stack2)

/-- Modelled from the spec: the comment-preserving parse of the content. -/
def parseDoc (content : String) : List YNode :=
  parseDocGo (splitLines content) []

/-- A run of spaces. -/
def mkSpaces (n : Nat) : String :=
  String.mk (List.replicate n ' ')

/-- Modelled from the spec: the in-place path-setter over the document:
the first entry at the given path gets the new value (its line rendered
from its own indentation and key); every other node is untouched. -/
def setEntry (segs : List String) (v : String) : List YNode → List YNode
  | [] => []
  | YNode.pass t :: rest => YNode.pass t :: setEntry segs v rest
  | YNode.entry e :: rest =>
    if e.path = segs then
      YNode.entry { e with value := v, raw := mkSpaces e.indent ++ e.key ++ ": " ++ v } :: rest
    else YNode.entry e :: setEntry segs v rest

/-- Does the document hold an entry at the path? -/
def hasPath (doc : List YNode) (segs : List String) : Bool :=
  doc.any (fun n => match n with
    | YNode.entry e => e.path = segs
    | YNode.pass _ => false)

/-- Modelled from the spec: setIn sets the value in place when the path
exists and otherwise appends a new mapping line at the end. -/
def setInDoc (doc : List YNode) (segs : List String) (v : String) : List YNode :=
  if hasPath doc segs then setEntry segs v doc
  else
    doc ++ [YNode.entry
      { indent := 0
        key := joinDot segs
        path := segs
        value := v
        raw := joinDot segs ++ ": " ++ v }]

/-- Rendering one node back to its line. -/
def renderNode : YNode → String
  | YNode.pass t => t
  | YNode.entry e => e.raw

/-- Modelled from the spec: yamlParser.merge — parse to the document
model, set each (path, value) of the key map in place, re-render. -/
def yamlMerge (content : String) (keys : List (String × String)) : String :=
  joinLines
    ((keys.foldl (fun d e => setInDoc d (splitDot e.1) e.2) (parseDoc content)).map renderNode)

/-! ## Lemmas about mergePayloads and splitByMachine -/

theorem alookup_eq_none_iff {α : Type} :
    ∀ (l : List (String × α)) (k : String), alookup l k = none ↔ k ∉ l.map Prod.fst := by
  intro l k
  induction l with
  | nil => simp [alookup]
  | cons e rest ih =>
    obtain ⟨k0, v0⟩ := e
    by_cases hk : k0 = k
    · subst hk
      simp [alookup]
    · rw [alookup]
      simp only [if_neg hk, List.map_cons, List.mem_cons]
      rw [ih]
      constructor
      · intro h hc
        rcases hc with hc | hc
        · exact hk hc.symm
        · exact h hc
      · intro h hc
        exact h (Or.inr hc)

theorem alookup_map_pairs {α : Type} (f : α → String) :
    ∀ (l : List α) (k : String),
      alookup (l.map (fun p => (f p, p))) k = l.find? (fun p => f p == k) := by
  intro l k
  induction l with
  | nil => simp [alookup]
  | cons p rest ih =>
    by_cases h : f p = k
    · simp [alookup, List.find?, h]
    · simp only [List.map_cons, alookup, List.find?]
      rw [if_neg h, ih]
      have : (f p == k) = false := by simp [h]
      rw [this]

theorem aerase_eq_filter {α : Type} :
    ∀ (l : List (String × α)), (l.map Prod.fst).Nodup →
      ∀ k, aerase l k = l.filter (fun e => !(e.1 == k)) := by
  intro l
  induction l with
  | nil => simp [aerase]
  | cons e rest ih =>
    intro hnd k
    obtain ⟨k0, v0⟩ := e
    simp only [List.map_cons, List.nodup_cons] at hnd
    by_cases hk : k0 = k
    · subst hk
      have h1 : aerase ((k0, v0) :: rest) k0 = rest := by
        rw [aerase]
        simp
      rw [h1, List.filter_cons]
      have hcond : (!((k0, v0).1 == k0)) = false := by simp
      rw [hcond]
      simp only [Bool.false_eq_true, if_false]
      rw [List.filter_eq_self.mpr]
      intro e he
      have : e.1 ≠ k0 := by
        intro hcontra
        exact hnd.1 (hcontra ▸ List.mem_map_of_mem Prod.fst he)
      simp [this]
    · rw [aerase]
      simp only [if_neg hk, List.filter_cons]
      have hcond : (!((k0, v0).1 == k)) = true := by simp [hk]
      rw [hcond]
      simp only [if_true]
      rw [ih hnd.2 k]

theorem aerase_keys_nodup {α : Type} (l : List (String × α)) (h : (l.map Prod.fst).Nodup)
    (k : String) : ((aerase l k).map Prod.fst).Nodup := by
  rw [aerase_eq_filter l h k]
  exact List.Nodup.sublist (List.Sublist.map Prod.fst (List.filter_sublist l)) h

theorem alookup_aerase_of_ne {α : Type} :
    ∀ (l : List (String × α)) (k0 k : String), k ≠ k0 →
      alookup (aerase l k0) k = alookup l k := by
  intro l
  induction l with
  | nil => simp [aerase]
  | cons e rest ih =>
    intro k0 k hne
    obtain ⟨k1, v1⟩ := e
    by_cases h1 : k1 = k0
    · subst h1
      have h2 : aerase ((k1, v1) :: rest) k1 = rest := by
        rw [aerase]
        simp
      rw [h2, alookup]
      rw [if_neg (Ne.symm hne)]
    · rw [aerase]
      simp only [if_neg h1]
      rw [alookup, alookup]
      by_cases h2 : k1 = k
      · simp [h2]
      · simp only [if_neg h2]
        exact ih k0 k hne

theorem mergeGo_spec :
    ∀ (shared : List FilePayload) (mp : List (String × FilePayload)),
      (mp.map Prod.fst).Nodup → ((shared.map FilePayload.path).Nodup) →
      mergeGo mp shared
        = shared.map (fun s => (alookup mp s.path).getD s)
          ++ (mp.filter (fun e => !(shared.any (fun s => s.path == e.1)))).map Prod.snd := by
  intro shared
  induction shared with
  | nil =>
    intro mp _ _
    rw [mergeGo]
    simp
  | cons p rest ih =>
    intro mp hmp hnd
    simp only [List.map_cons, List.nodup_cons] at hnd
    cases h : alookup mp p.path with
    | some q =>
      rw [mergeGo, h]
      simp only []
      rw [ih (aerase mp p.path) (aerase_keys_nodup mp hmp p.path) hnd.2]
      have hmap : rest.map (fun s => (alookup (aerase mp p.path) s.path).getD s)
          = rest.map (fun s => (alookup mp s.path).getD s) := by
        apply List.map_congr_left
        intro s hs
        have hne : s.path ≠ p.path := by
          intro hcontra
          exact hnd.1 (hcontra ▸ List.mem_map_of_mem FilePayload.path hs)
        rw [alookup_aerase_of_ne mp p.path s.path hne]
      rw [hmap]
      have hfil : (aerase mp p.path).filter (fun e => !(rest.any (fun s => s.path == e.1)))
          = mp.filter (fun e => !((p :: rest).any (fun s => s.path == e.1))) := by
        rw [aerase_eq_filter mp hmp p.path, List.filter_filter]
        apply List.filter_congr
        intro e _
        by_cases hpe : p.path = e.1
        · simp [hpe]
        · have h1 : (e.1 == p.path) = false := by
            rw [beq_eq_false_iff_ne]
            exact fun hc => hpe hc.symm
          have h2 : (p.path == e.1) = false := by
            rw [beq_eq_false_iff_ne]
            exact hpe
          simp [h1, h2]
      rw [hfil]
      simp [List.map_cons, h]
    | none =>
      rw [mergeGo, h]
      simp only []
      rw [ih mp hmp hnd.2]
      have hfil : mp.filter (fun e => !(rest.any (fun s => s.path == e.1)))
          = mp.filter (fun e => !((p :: rest).any (fun s => s.path == e.1))) := by
        apply List.filter_congr
        intro e he
        have hne : e.1 ≠ p.path := by
          intro hcontra
          have := (alookup_eq_none_iff mp p.path).mp h
          exact this (hcontra ▸ List.mem_map_of_mem Prod.fst he)
        have : (p.path == e.1) = false := by
          rw [beq_eq_false_iff_ne]
          exact fun hc => hne hc.symm
        simp [this]
      rw [hfil]
      simp [h]

theorem machineMap_eq (machine : List FilePayload)
    (h : (machine.map FilePayload.path).Nodup) :
    machine.foldl (fun m p => aset m p.path p) []
      = machine.map (fun p => (p.path, p)) := by
  have h1 : machine.foldl (fun m p => aset m p.path p) []
      = (machine.map (fun p => (p.path, p))).foldl (fun a e => aset a e.1 e.2) [] := by
    rw [List.foldl_map]
  rw [h1, foldl_aset_append _ [] ?_ (fun e _ => rfl)]
  · rfl
  · rw [List.map_map]
    have : (Prod.fst ∘ fun p : FilePayload => (p.path, p)) = FilePayload.path := rfl
    rw [this]
    exact h

theorem map_pairs_filter_snd {α : Type} (f : α → String) :
    ∀ (l : List α) (pred : String → Bool),
      ((l.map (fun p => (f p, p))).filter (fun e => pred e.1)).map Prod.snd
        = l.filter (fun q => pred (f q)) := by
  intro l pred
  induction l with
  | nil => simp
  | cons q rest ih =>
    simp only [List.map_cons, List.filter_cons]
    cases hp : pred (f q) with
    | true => simp [hp, ih]
    | false => simp [hp, ih]

theorem map_pairs_fst_nodup {α : Type} (f : α → String) (l : List α)
    (h : (l.map f).Nodup) : ((l.map (fun p => (f p, p))).map Prod.fst).Nodup := by
  rw [List.map_map]
  have : (Prod.fst ∘ fun p : α => (f p, p)) = f := rfl
  rw [this]
  exact h

theorem mergePayloads_characterization (shared machine : List FilePayload)
    (h1 : (shared.map FilePayload.path).Nodup)
    (h2 : (machine.map FilePayload.path).Nodup) :
    mergePayloads shared machine
      = shared.map (fun s => (machine.find? (fun q => q.path == s.path)).getD s)
        ++ machine.filter (fun q => !(shared.any (fun s => s.path == q.path))) := by
  unfold mergePayloads
  rw [machineMap_eq machine h2,
    mergeGo_spec shared _ (map_pairs_fst_nodup FilePayload.path machine h2) h1]
  congr 1
  · apply List.map_congr_left
    intro s _
    rw [alookup_map_pairs]
  · exact map_pairs_filter_snd FilePayload.path machine
      (fun k => !(shared.any (fun s => s.path == k)))

theorem mergePayloads_splitByMachine (config : BwrssConfig) (payloads : List FilePayload)
    (hnd : (payloads.map FilePayload.path).Nodup) :
    mergePayloads (splitByMachine config payloads).shared
        (splitByMachine config payloads).machine
      = (splitByMachine config payloads).shared ++ (splitByMachine config payloads).machine := by
  unfold splitByMachine
  simp only []
  set mf := (config.files.filter (fun f => f.machine.getD false)).map (fun f => f.path) with hmf
  set sh := payloads.filter (fun p => !(mf.contains p.path)) with hsh
  set ma := payloads.filter (fun p => mf.contains p.path) with hma
  have hs : (sh.map FilePayload.path).Nodup :=
    List.Nodup.sublist (List.Sublist.map FilePayload.path (List.filter_sublist payloads)) hnd
  have hm : (ma.map FilePayload.path).Nodup :=
    List.Nodup.sublist (List.Sublist.map FilePayload.path (List.filter_sublist payloads)) hnd
  rw [mergePayloads_characterization sh ma hs hm]
  congr 1
  · have : ∀ s ∈ sh, (ma.find? (fun q => q.path == s.path)).getD s = s := by
      intro s hs2
      have hsc : mf.contains s.path = false := by
        rw [hsh] at hs2
        have := (List.mem_filter.mp hs2).2
        simpa using this
      have hfind : ma.find? (fun q => q.path == s.path) = none := by
        rw [List.find?_eq_none]
        intro q hq
        have hqc : mf.contains q.path = true := by
          rw [hma] at hq
          exact (List.mem_filter.mp hq).2
        simp only [beq_iff_eq]
        intro hc
        rw [hc, hsc] at hqc
        cases hqc
      rw [hfind]
      rfl
    rw [List.map_congr_left this]
    simp
  · rw [List.filter_eq_self.mpr]
    intro q hq
    have hqc : mf.contains q.path = true := by
      rw [hma] at hq
      exact (List.mem_filter.mp hq).2
    simp only [Bool.not_eq_true']
    rw [List.any_eq_false]
    intro s hs2
    have hsc : mf.contains s.path = false := by
      rw [hsh] at hs2
      have := (List.mem_filter.mp hs2).2
      simpa using this
    simp only [beq_iff_eq]
    intro hc
    rw [hc] at hsc
    rw [hqc] at hsc
    cases hsc

/-! ## Lemmas about the INI merge round trip -/

/-- Is the line an assignment of the given key? -/
def isAssignOf (line : String) (k : String) : Bool :=
  match lineKind line with
  | LineKind.pass => false
  | LineKind.assign k2 _ => k2 == k

theorem alookup_aerase_self_none {α : Type} (l : List (String × α))
    (h : (l.map Prod.fst).Nodup) (k : String) : alookup (aerase l k) k = none := by
  rw [aerase_eq_filter l h k, alookup_eq_none_iff]
  intro hmem
  obtain ⟨e, he, heq⟩ := List.mem_map.mp hmem
  have := (List.mem_filter.mp he).2
  rw [heq] at this
  simp at this

theorem parse_key_assign :
    ∀ (lines : List String) (init : List (String × String)) (k : String),
      alookup (lines.foldl iniParser.parseStep init) k ≠ none →
      alookup init k ≠ none ∨ lines.any (fun line => isAssignOf line k) = true := by
  intro lines
  induction lines with
  | nil =>
    intro init k h
    exact Or.inl h
  | cons line rest ih =>
    intro init k h
    rw [List.foldl_cons] at h
    rcases ih (iniParser.parseStep init line) k h with h2 | h2
    · unfold iniParser.parseStep at h2
      cases hlk : lineKind line with
      | pass =>
        rw [hlk] at h2
        exact Or.inl h2
      | assign k0 v0 =>
        rw [hlk] at h2
        by_cases hk : k0 = k
        · refine Or.inr ?_
          simp only [List.any_cons, Bool.or_eq_true]
          exact Or.inl (by simp [isAssignOf, hlk, hk])
        · rw [alookup_aset_of_ne init k0 k _ hk] at h2
          exact Or.inl h2
    · refine Or.inr ?_
      simp only [List.any_cons, Bool.or_eq_true]
      exact Or.inr h2

theorem mergeLines_spec :
    ∀ (lines : List String) (rem : List (String × String)),
      (rem.map Prod.fst).Nodup →
      (∀ line ∈ lines, ∀ k v0, lineKind line = LineKind.assign k v0 →
        ∀ v, alookup rem k = some v → line = k ++ "=" ++ v) →
      iniParser.mergeLines lines rem
        = (lines, rem.filter (fun e => !(lines.any (fun line => isAssignOf line e.1)))) := by
  intro lines
  induction lines with
  | nil =>
    intro rem _ _
    rw [iniParser.mergeLines]
    simp
  | cons line rest ih =>
    intro rem hnd hcanon
    cases hlk : lineKind line with
    | pass =>
      rw [iniParser.mergeLines, hlk]
      rw [ih rem hnd (fun l hl => hcanon l (by simp [hl]))]
      simp only [Prod.mk.injEq, true_and]
      apply List.filter_congr
      intro e _
      simp [isAssignOf, hlk]
    | assign k v0 =>
      cases hlook : alookup rem k with
      | some v =>
        simp only [iniParser.mergeLines, hlk, hlook]
        have hline : line = k ++ "=" ++ v := hcanon line (by simp) k v0 hlk v hlook
        have hsub : ∀ l ∈ rest, ∀ k2 v2, lineKind l = LineKind.assign k2 v2 →
            ∀ v3, alookup (aerase rem k) k2 = some v3 → l = k2 ++ "=" ++ v3 := by
          intro l hl k2 v2 hlk2 v3 hv3
          by_cases hk2 : k2 = k
          · subst hk2
            rw [alookup_aerase_self_none rem hnd k2] at hv3
            cases hv3
          · rw [alookup_aerase_of_ne rem k k2 hk2] at hv3
            exact hcanon l (by simp [hl]) k2 v2 hlk2 v3 hv3
        rw [ih (aerase rem k) (aerase_keys_nodup rem hnd k) hsub]
        simp only [Prod.mk.injEq]
        constructor
        · rw [hline]
        · rw [aerase_eq_filter rem hnd k, List.filter_filter]
          apply List.filter_congr
          intro e _
          by_cases hek : e.1 = k
          · have h1 : (e.1 == k) = true := by simp [hek]
            have h2 : isAssignOf line e.1 = true := by simp [isAssignOf, hlk, hek]
            simp [h1, h2]
          · have h1 : (e.1 == k) = false := by simp [hek]
            have h2 : isAssignOf line e.1 = false := by
              simp [isAssignOf, hlk]
              exact fun hc => hek hc.symm
            simp [h1, h2]
      | none =>
        simp only [iniParser.mergeLines, hlk, hlook]
        rw [ih rem hnd (fun l hl => hcanon l (by simp [hl]))]
        simp only [Prod.mk.injEq, true_and]
        apply List.filter_congr
        intro e he
        have hek : e.1 ≠ k := by
          intro hc
          have := (alookup_eq_none_iff rem k).mp hlook
          exact this (hc ▸ List.mem_map_of_mem Prod.fst he)
        have h2 : isAssignOf line e.1 = false := by
          simp [isAssignOf, hlk]
          exact fun hc => hek hc.symm
        simp [h2]

theorem iniMerge_of_canonical (c : String) (m : List (String × String))
    (hnd : (m.map Prod.fst).Nodup)
    (hvals : ∀ e ∈ m, alookup (iniParser.parse c) e.1 = some e.2)
    (hcanon : ∀ line ∈ splitLines c, ∀ k v0, lineKind line = LineKind.assign k v0 →
      ∀ v, alookup m k = some v → line = k ++ "=" ++ v) :
    iniParser.merge c m = c := by
  unfold iniParser.merge
  rw [mergeLines_spec (splitLines c) m hnd hcanon]
  have hfilter : m.filter
      (fun e => !((splitLines c).any (fun line => isAssignOf line e.1))) = [] := by
    rw [List.filter_eq_nil_iff]
    intro e he
    have h1 : alookup (iniParser.parse c) e.1 ≠ none := by
      rw [hvals e he]
      simp
    unfold iniParser.parse at h1
    rcases parse_key_assign (splitLines c) [] e.1 h1 with h | h
    · exact absurd rfl h
    · simp [h]
  rw [hfilter]
  simp only [List.map_nil, List.append_nil]
  exact joinLines_splitLines c

/-! ## Lemmas about the YAML document model -/

theorem splitSepChars_sep_not_mem (sep : Char) :
    ∀ cs acc, sep ∉ acc → ∀ seg ∈ splitSepChars sep cs acc, sep ∉ seg := by
  intro cs
  induction cs with
  | nil =>
    intro acc hacc seg hseg
    simp [splitSepChars] at hseg
    subst hseg
    simp
    exact hacc
  | cons c rest ih =>
    intro acc hacc seg hseg
    by_cases hc : c = sep
    · rw [splitSepChars, if_pos hc] at hseg
      rcases List.mem_cons.mp hseg with rfl | hseg
      · simp
        exact hacc
      · exact ih [] (by simp) seg hseg
    · rw [splitSepChars, if_neg hc] at hseg
      exact ih (c :: acc) (by
        intro hmem
        rcases List.mem_cons.mp hmem with hh | hh
        · exact hc hh.symm
        · exact hacc hh) seg hseg

theorem splitSepChars_chars_subset (sep : Char) :
    ∀ cs acc, ∀ seg ∈ splitSepChars sep cs acc, ∀ c ∈ seg, c ∈ acc ∨ c ∈ cs := by
  intro cs
  induction cs with
  | nil =>
    intro acc seg hseg c hc
    simp [splitSepChars] at hseg
    subst hseg
    simp at hc
    exact Or.inl hc
  | cons c0 rest ih =>
    intro acc seg hseg c hc
    by_cases hc0 : c0 = sep
    · rw [splitSepChars, if_pos hc0] at hseg
      rcases List.mem_cons.mp hseg with rfl | hseg
      · simp at hc
        exact Or.inl hc
      · rcases ih [] seg hseg c hc with h | h
        · simp at h
        · exact Or.inr (by simp [h])
    · rw [splitSepChars, if_neg hc0] at hseg
      rcases ih (c0 :: acc) seg hseg c hc with h | h
      · rcases List.mem_cons.mp h with rfl | h
        · exact Or.inr (by simp)
        · exact Or.inl h
      · exact Or.inr (by simp [h])

theorem splitLines_no_newline (content : String) :
    ∀ l ∈ splitLines content, '\n' ∉ l.data := by
  intro l hl
  unfold splitLines at hl
  obtain ⟨seg, hseg, rfl⟩ := List.mem_map.mp hl
  exact splitSepChars_sep_not_mem '\n' content.data [] (by simp) seg hseg

theorem splitDot_chars_subset (k : String) :
    ∀ s ∈ splitDot k, ∀ c ∈ s.data, c ∈ k.data := by
  intro s hs c hc
  unfold splitDot at hs
  obtain ⟨seg, hseg, rfl⟩ := List.mem_map.mp hs
  rcases splitSepChars_chars_subset '.' k.data [] seg hseg c hc with h | h
  · simp at h
  · exact h

theorem trimChars_subset (cs : List Char) : ∀ c ∈ trimChars cs, c ∈ cs := by
  intro c hc
  unfold trimChars at hc
  rw [List.mem_reverse] at hc
  have h1 := (List.dropWhile_sublist (l := (cs.dropWhile jsWhitespace).reverse)
    (p := jsWhitespace)).mem hc
  rw [List.mem_reverse] at h1
  exact (List.dropWhile_sublist (p := jsWhitespace)).mem h1

theorem joinDot_no_char (c : Char) (hc : c ≠ '.') :
    ∀ segs : List String, (∀ s ∈ segs, c ∉ s.data) → c ∉ (joinDot segs).data := by
  intro segs
  induction segs with
  | nil =>
    intro _
    simp [joinDot]
  | cons k rest ih =>
    intro hsegs
    cases rest with
    | nil =>
      simp [joinDot]
      exact hsegs k (by simp)
    | cons r rs =>
      rw [joinDot_cons k (r :: rs) (by simp)]
      simp only [String.data_append, List.mem_append]
      intro hmem
      rcases hmem with (h | h) | h
      · exact hsegs k (by simp) h
      · simp at h
        exact hc h
      · exact ih (fun s hsx => hsegs s (by simp [hsx])) h

/-- Invariant kept through the document fold: every node renders to a
newline-free line, and entry keys are newline-free (so a rewritten value
line stays one line). -/
def nodeOk (n : YNode) : Prop :=
  '\n' ∉ (renderNode n).data ∧ ∀ e, n = YNode.entry e → '\n' ∉ e.key.data

theorem lineShape_key_subset (line : String) (ind : Nat) (k v : String)
    (h : lineShape line = some (ind, k, v)) : ∀ c ∈ k.data, c ∈ line.data := by
  unfold lineShape at h
  simp only [] at h
  split at h
  · cases h
  · split at h
    · cases h
    · split at h
      · cases h
      · rename_i i hfind
        injection h with h2
        simp only [Prod.mk.injEq] at h2
        obtain ⟨-, hk, -⟩ := h2
        subst hk
        intro c hc
        simp only [string_mk_data] at hc
        have h3 := trimChars_subset _ c hc
        have h4 := List.take_subset i _ h3
        exact trimChars_subset _ c h4

theorem parseDocGo_nodeOk :
    ∀ (lines : List String) (stack : List (Nat × String)),
      (∀ l ∈ lines, '\n' ∉ l.data) → ∀ n ∈ parseDocGo lines stack, nodeOk n := by
  intro lines
  induction lines with
  | nil =>
    intro stack _ n hn
    simp [parseDocGo] at hn
  | cons line rest ih =>
    intro stack hnl n hn
    have hline : '\n' ∉ line.data := hnl line (by simp)
    have hrest : ∀ l ∈ rest, '\n' ∉ l.data := fun l hl => hnl l (by simp [hl])
    rw [parseDocGo] at hn
    cases hsh : lineShape line with
    | none =>
      rw [hsh] at hn
      rcases List.mem_cons.mp hn with rfl | hn
      · exact ⟨hline, fun e he => by cases he⟩
      · exact ih stack hrest n hn
    | some t =>
      obtain ⟨ind, k, v⟩ := t
      rw [hsh] at hn
      rcases List.mem_cons.mp hn with rfl | hn
      · refine ⟨hline, ?_⟩
        intro e he
        injection he with he
        subst he
        simp only []
        intro hmem
        exact hline (lineShape_key_subset line ind k v hsh '\n' hmem)
      · exact ih _ hrest n hn

theorem no_newline_append (a b : String) (ha : '\n' ∉ a.data) (hb : '\n' ∉ b.data) :
    '\n' ∉ (a ++ b).data := by
  rw [String.data_append]
  intro h
  rcases List.mem_append.mp h with h | h
  · exact ha h
  · exact hb h

theorem no_newline_mkSpaces (n : Nat) : '\n' ∉ (mkSpaces n).data := by
  unfold mkSpaces
  simp only [string_mk_data]
  intro h
  have := List.eq_of_mem_replicate h
  cases this

theorem setEntry_nodeOk (segs : List String) (v : String) (hv : '\n' ∉ v.data) :
    ∀ doc, (∀ n ∈ doc, nodeOk n) → ∀ n ∈ setEntry segs v doc, nodeOk n := by
  intro doc
  induction doc with
  | nil =>
    intro _ n hn
    simp [setEntry] at hn
  | cons n0 rest ih =>
    intro hdoc n hn
    have hrest : ∀ n ∈ rest, nodeOk n := fun n2 hn2 => hdoc n2 (by simp [hn2])
    cases n0 with
    | pass t =>
      rw [setEntry] at hn
      rcases List.mem_cons.mp hn with rfl | hn
      · exact hdoc (YNode.pass t) (by simp)
      · exact ih hrest n hn
    | entry e =>
      rw [setEntry] at hn
      by_cases hp : e.path = segs
      · rw [if_pos hp] at hn
        rcases List.mem_cons.mp hn with rfl | hn
        · have hkey : '\n' ∉ e.key.data :=
            (hdoc (YNode.entry e) (by simp)).2 e rfl
          refine ⟨?_, ?_⟩
          · show '\n' ∉ (mkSpaces e.indent ++ e.key ++ ": " ++ v).data
            exact no_newline_append _ _
              (no_newline_append _ _
                (no_newline_append _ _ (no_newline_mkSpaces e.indent) hkey)
                (by decide))
              hv
          · intro e2 he2
            injection he2 with he2
            subst he2
            exact hkey
        · exact hrest n hn
      · rw [if_neg hp] at hn
        rcases List.mem_cons.mp hn with rfl | hn
        · exact hdoc (YNode.entry e) (by simp)
        · exact ih hrest n hn

theorem setInDoc_nodeOk (doc : List YNode) (segs : List String) (v : String)
    (hdoc : ∀ n ∈ doc, nodeOk n) (hv : '\n' ∉ v.data)
    (hsegs : ∀ s ∈ segs, '\n' ∉ s.data) :
    ∀ n ∈ setInDoc doc segs v, nodeOk n := by
  intro n hn
  unfold setInDoc at hn
  by_cases hhas : hasPath doc segs
  · rw [if_pos hhas] at hn
    exact setEntry_nodeOk segs v hv doc hdoc n hn
  · rw [if_neg hhas] at hn
    rcases List.mem_append.mp hn with hn | hn
    · exact hdoc n hn
    · have hjoin : '\n' ∉ (joinDot segs).data :=
        joinDot_no_char '\n' (by decide) segs hsegs
      simp at hn
      subst hn
      refine ⟨?_, ?_⟩
      · show '\n' ∉ (joinDot segs ++ ": " ++ v).data
        exact no_newline_append _ _
          (no_newline_append _ _ hjoin (by decide)) hv
      · intro e2 he2
        injection he2 with he2
        subst he2
        exact hjoin

theorem setEntry_get_pass (segs : List String) (v : String) :
    ∀ (doc : List YNode) (i : Nat) (t : String),
      doc.get? i = some (YNode.pass t) →
      (setEntry segs v doc).get? i = some (YNode.pass t) := by
  intro doc
  induction doc with
  | nil =>
    intro i t h
    simp at h
  | cons n0 rest ih =>
    intro i t h
    cases n0 with
    | pass t0 =>
      rw [setEntry]
      cases i with
      | zero => exact h
      | succ j => exact ih j t h
    | entry e =>
      rw [setEntry]
      by_cases hp : e.path = segs
      · rw [if_pos hp]
        cases i with
        | zero => simp at h
        | succ j => exact h
      · rw [if_neg hp]
        cases i with
        | zero => simp at h
        | succ j => exact ih j t h

theorem setEntry_get_entry_ne (segs : List String) (v : String) :
    ∀ (doc : List YNode) (i : Nat) (e : YEntry),
      doc.get? i = some (YNode.entry e) → e.path ≠ segs →
      (setEntry segs v doc).get? i = some (YNode.entry e) := by
  intro doc
  induction doc with
  | nil =>
    intro i e h _
    simp at h
  | cons n0 rest ih =>
    intro i e h hne
    cases n0 with
    | pass t0 =>
      rw [setEntry]
      cases i with
      | zero => exact h
      | succ j => exact ih j e h hne
    | entry e0 =>
      rw [setEntry]
      by_cases hp : e0.path = segs
      · rw [if_pos hp]
        cases i with
        | zero =>
          simp at h
          subst h
          exact absurd hp hne
        | succ j => exact h
      · rw [if_neg hp]
        cases i with
        | zero => exact h
        | succ j => exact ih j e h hne

theorem setEntry_length (segs : List String) (v : String) :
    ∀ doc : List YNode, (setEntry segs v doc).length = doc.length := by
  intro doc
  induction doc with
  | nil => simp [setEntry]
  | cons n0 rest ih =>
    cases n0 with
    | pass t => simp [setEntry, ih]
    | entry e =>
      rw [setEntry]
      by_cases hp : e.path = segs
      · rw [if_pos hp]
        simp
      · rw [if_neg hp]
        simp [ih]

theorem setInDoc_get_pass (doc : List YNode) (segs : List String) (v : String)
    (i : Nat) (t : String) (h : doc.get? i = some (YNode.pass t)) :
    (setInDoc doc segs v).get? i = some (YNode.pass t) := by
  unfold setInDoc
  by_cases hhas : hasPath doc segs
  · rw [if_pos hhas]
    exact setEntry_get_pass segs v doc i t h
  · rw [if_neg hhas]
    rw [List.get?_append (List.get?_eq_some.mp h).1]
    exact h

theorem setInDoc_get_entry_ne (doc : List YNode) (segs : List String) (v : String)
    (i : Nat) (e : YEntry) (h : doc.get? i = some (YNode.entry e)) (hne : e.path ≠ segs) :
    (setInDoc doc segs v).get? i = some (YNode.entry e) := by
  unfold setInDoc
  by_cases hhas : hasPath doc segs
  · rw [if_pos hhas]
    exact setEntry_get_entry_ne segs v doc i e h hne
  · rw [if_neg hhas]
    rw [List.get?_append (List.get?_eq_some.mp h).1]
    exact h

theorem fold_setInDoc_nodeOk :
    ∀ (m : List (String × String)) (doc : List YNode),
      (∀ n ∈ doc, nodeOk n) → (∀ e ∈ m, '\n' ∉ e.1.data ∧ '\n' ∉ e.2.data) →
      ∀ n ∈ m.foldl (fun d e => setInDoc d (splitDot e.1) e.2) doc, nodeOk n := by
  intro m
  induction m with
  | nil =>
    intro doc hdoc _ n hn
    exact hdoc n hn
  | cons ke rest ih =>
    intro doc hdoc hm n hn
    rw [List.foldl_cons] at hn
    refine ih (setInDoc doc (splitDot ke.1) ke.2) ?_ (fun e he => hm e (by simp [he])) n hn
    refine setInDoc_nodeOk doc (splitDot ke.1) ke.2 hdoc (hm ke (by simp)).2 ?_
    intro s hs hmem
    exact (hm ke (by simp)).1 (splitDot_chars_subset ke.1 s hs '\n' hmem)

theorem fold_get_pass :
    ∀ (m : List (String × String)) (doc : List YNode) (i : Nat) (t : String),
      doc.get? i = some (YNode.pass t) →
      (m.foldl (fun d e => setInDoc d (splitDot e.1) e.2) doc).get? i
        = some (YNode.pass t) := by
  intro m
  induction m with
  | nil =>
    intro doc i t h
    exact h
  | cons ke rest ih =>
    intro doc i t h
    rw [List.foldl_cons]
    exact ih _ i t (setInDoc_get_pass doc (splitDot ke.1) ke.2 i t h)

theorem fold_get_entry :
    ∀ (m : List (String × String)) (doc : List YNode) (i : Nat) (e : YEntry),
      doc.get? i = some (YNode.entry e) →
      (∀ ke ∈ m, splitDot ke.1 ≠ e.path) →
      (m.foldl (fun d e => setInDoc d (splitDot e.1) e.2) doc).get? i
        = some (YNode.entry e) := by
  intro m
  induction m with
  | nil =>
    intro doc i e h _
    exact h
  | cons ke rest ih =>
    intro doc i e h hne
    rw [List.foldl_cons]
    refine ih _ i e ?_ (fun k2 hk2 => hne k2 (by simp [hk2]))
    exact setInDoc_get_entry_ne doc (splitDot ke.1) ke.2 i e h
      (fun hc => hne ke (by simp) hc.symm)

theorem parseDocGo_render :
    ∀ (lines : List String) (stack : List (Nat × String)),
      (parseDocGo lines stack).map renderNode = lines := by
  intro lines
  induction lines with
  | nil =>
    intro stack
    simp [parseDocGo]
  | cons line rest ih =>
    intro stack
    rw [parseDocGo]
    cases hsh : lineShape line with
    | none => simp [renderNode, ih]
    | some t =>
      obtain ⟨ind, k, v⟩ := t
      simp [renderNode, ih]

theorem parseDocGo_get_pass :
    ∀ (lines : List String) (stack : List (Nat × String)) (i : Nat) (line : String),
      lines.get? i = some line → lineShape line = none →
      (parseDocGo lines stack).get? i = some (YNode.pass line) := by
  intro lines
  induction lines with
  | nil =>
    intro stack i line h _
    simp at h
  | cons l0 rest ih =>
    intro stack i line h hshape
    rw [parseDocGo]
    cases i with
    | zero =>
      simp at h
      subst h
      rw [hshape]
      rfl
    | succ j =>
      simp only [List.get?_cons_succ] at h
      cases hsh : lineShape l0 with
      | none => exact ih stack j line h hshape
      | some t =>
        obtain ⟨ind, k, v⟩ := t
        exact ih _ j line h hshape

theorem setInDoc_ne_nil (doc : List YNode) (segs : List String) (v : String)
    (h : doc ≠ []) : setInDoc doc segs v ≠ [] := by
  unfold setInDoc
  by_cases hhas : hasPath doc segs
  · rw [if_pos hhas]
    intro hc
    have := setEntry_length segs v doc
    rw [hc] at this
    simp at this
    exact h (List.length_eq_zero.mp this.symm)
  · rw [if_neg hhas]
    simp

theorem fold_ne_nil :
    ∀ (m : List (String × String)) (doc : List YNode), doc ≠ [] →
      m.foldl (fun d e => setInDoc d (splitDot e.1) e.2) doc ≠ [] := by
  intro m
  induction m with
  | nil =>
    intro doc h
    exact h
  | cons ke rest ih =>
    intro doc h
    rw [List.foldl_cons]
    exact ih _ (setInDoc_ne_nil doc (splitDot ke.1) ke.2 h)

theorem parseDoc_ne_nil (content : String) : parseDoc content ≠ [] := by
  unfold parseDoc
  have h1 : splitLines content ≠ [] := by
    unfold splitLines
    intro hc
    exact splitSepChars_ne_nil '\n' content.data [] (List.map_eq_nil_iff.mp hc)
  cases hl : splitLines content with
  | nil => exact absurd hl h1
  | cons l rest =>
    rw [parseDocGo]
    cases hsh : lineShape l with
    | none => simp
    | some t =>
      obtain ⟨ind, k, v⟩ := t
      simp

theorem yamlMerge_lines (content : String) (m : List (String × String))
    (hm : ∀ e ∈ m, '\n' ∉ e.1.data ∧ '\n' ∉ e.2.data) :
    splitLines (yamlMerge content m)
      = (m.foldl (fun d e => setInDoc d (splitDot e.1) e.2) (parseDoc content)).map
          renderNode := by
  unfold yamlMerge
  apply splitLines_joinLines
  · rw [← List.length_pos_iff_ne_nil, List.length_map, List.length_pos_iff_ne_nil]
    exact fold_ne_nil m (parseDoc content) (parseDoc_ne_nil content)
  · intro l hl
    obtain ⟨n, hn, rfl⟩ := List.mem_map.mp hl
    have hok := fold_setInDoc_nodeOk m (parseDoc content)
      (parseDocGo_nodeOk (splitLines content) [] (splitLines_no_newline content))
      hm n hn
    exact hok.1

/-! ## Claim theorems -/

/-- C1: the claim says every valid version-1 config entry keeps its
declared machine flag through validateConfig, true meaning
machine-specific under splitByMachine.  The code contradicts it (and its
own type declaration and callers): validateConfig copies only path and
keys, so an entry declared machine: true comes back with no machine flag
and splitByMachine classifies its payload shared; the last conjunct
shows the intended config (flag kept) would classify it
machine-specific. -/
theorem validateConfig_drops_machine :
    validateConfig (JVal.obj
        [("version", JVal.num 1),
         ("files", JVal.arr [JVal.obj
            [("path", JVal.str "secrets.env"), ("machine", JVal.bool true)]])])
      = Except.ok
          { version := 1, name := none,
            files := [{ path := "secrets.env", keys := none, machine := none }] }
    ∧ (splitByMachine
          { version := 1, name := none,
            files := [{ path := "secrets.env", keys := none, machine := none }] }
          [{ path := "secrets.env", content := some "S3CRET" }]).machine = []
    ∧ (splitByMachine
          { version := 1, name := none,
            files := [{ path := "secrets.env", keys := none, machine := none }] }
          [{ path := "secrets.env", content := some "S3CRET" }]).shared
        = [{ path := "secrets.env", content := some "S3CRET" }]
    ∧ (splitByMachine
          { version := 1, name := none,
            files := [{ path := "secrets.env", keys := none, machine := some true }] }
          [{ path := "secrets.env", content := some "S3CRET" }]).machine
        = [{ path := "secrets.env", content := some "S3CRET" }] := by
  refine ⟨rfl, by decide, by decide, by decide⟩

/-- C5: the claim says jsonParser.merge re-serializes with the
indentation width of the first indented line, 2 when none.  The code's
detectJsonIndent runs a multiline regex through String.match, whose
leftmost match starts at position 0 whenever any non-whitespace
character exists, so for ordinary JSON beginning with a brace it always
yields 2: on a four-space-indented document the code answers 2 while the
specified detection answers 4. -/
theorem detectJsonIndent_ignores_indented_lines :
    detectJsonIndent "\x7b\n    \"a\": \"1\"\n\x7d" = 2
    ∧ specIndentWidth "\x7b\n    \"a\": \"1\"\n\x7d" = 4 := by
  refine ⟨by decide, by decide⟩

/-- C9: every FilePayload built by saveCommand's per-file loop has
exactly one of content and keys set — content for the full-file branches
(no keys filter, empty keys filter, or no parser available, binary
included) and keys for the parser extraction branch — never both, never
neither; stated for every declaration, file content, decoding and
extraction function. -/
theorem savePayload_content_xor_keys (utf8 b64 : List Nat → String)
    (extractFn : ParserId → String → List JVal → List (String × String))
    (f : ManagedFile) (mode : Nat) (buf : List Nat) :
    (savePayloadFor utf8 b64 extractFn f mode buf).content.isSome
      = !((savePayloadFor utf8 b64 extractFn f mode buf).keys.isSome) := by
  unfold savePayloadFor
  cases f.keys with
  | none => simp
  | some ks =>
    by_cases hlen : ks.length > 0
    · simp only [if_pos hlen]
      cases getParser f.path <;> simp
    · simp only [if_neg hlen]
      simp

/-- Witness for C9 at a concrete declaration and buffer. -/
theorem savePayload_content_xor_keys_witness :
    (savePayloadFor (fun _ => "text") (fun _ => "b64") (fun _ _ _ => [])
        { path := "a.json", keys := some [JVal.str "k"], machine := none } 420 [1, 2]).content.isSome
      = !((savePayloadFor (fun _ => "text") (fun _ => "b64") (fun _ _ _ => [])
        { path := "a.json", keys := some [JVal.str "k"], machine := none } 420 [1, 2]).keys.isSome) :=
  savePayload_content_xor_keys (fun _ => "text") (fun _ => "b64") (fun _ _ _ => [])
    { path := "a.json", keys := some [JVal.str "k"], machine := none } 420 [1, 2]

/-- C10 (amended): for payload lists whose paths are pairwise distinct
within each list, mergePayloads replaces each shared payload whose path
also occurs in the machine list by that machine payload, in the shared
occurrence's position, and appends the machine-only payloads after all
shared-derived entries in machine order; nothing is dropped.  (Without
the distinctness hypotheses the code collapses duplicate machine paths
and only replaces the first shared occurrence.) -/
theorem mergePayloads_machine_precedence (shared machine : List FilePayload)
    (h1 : (shared.map FilePayload.path).Nodup)
    (h2 : (machine.map FilePayload.path).Nodup) :
    mergePayloads shared machine
      = shared.map (fun s => (machine.find? (fun q => q.path == s.path)).getD s)
        ++ machine.filter (fun q => !(shared.any (fun s => s.path == q.path))) :=
  mergePayloads_characterization shared machine h1 h2

/-- Witness for C10: one common path, one shared-only, one machine-only. -/
theorem mergePayloads_machine_precedence_witness :
    (([{ path := "a", content := some "s1" }, { path := "b", content := some "s2" }]
        : List FilePayload).map FilePayload.path).Nodup
    ∧ (([{ path := "a", content := some "m1" }, { path := "c", content := some "m2" }]
        : List FilePayload).map FilePayload.path).Nodup
    ∧ mergePayloads
        [{ path := "a", content := some "s1" }, { path := "b", content := some "s2" }]
        [{ path := "a", content := some "m1" }, { path := "c", content := some "m2" }]
      = ([{ path := "a", content := some "s1" }, { path := "b", content := some "s2" }].map
          (fun s => (([{ path := "a", content := some "m1" },
              { path := "c", content := some "m2" }] : List FilePayload).find?
            (fun q => q.path == s.path)).getD s))
        ++ ([{ path := "a", content := some "m1" }, { path := "c", content := some "m2" }]
            : List FilePayload).filter
          (fun q => !(([{ path := "a", content := some "s1" },
              { path := "b", content := some "s2" }] : List FilePayload).any
            (fun s => s.path == q.path))) :=
  ⟨by decide, by decide,
    mergePayloads_machine_precedence _ _ (by decide) (by decide)⟩

/-- Counterexample for C10 as frozen: with two machine payloads sharing
a path, the Map built from the machine list keeps only the later one, so
a payload is dropped — the claim's "no payload is dropped" fails for
unrestricted lists. -/
theorem mergePayloads_drops_duplicate_machine_path :
    mergePayloads [] [{ path := "a", content := some "1" }, { path := "a", content := some "2" }]
      = [{ path := "a", content := some "2" }]
    ∧ ({ path := "a", content := some "1" } : FilePayload)
        ∈ ([{ path := "a", content := some "1" }, { path := "a", content := some "2" }]
            : List FilePayload)
    ∧ ({ path := "a", content := some "1" } : FilePayload)
        ∉ mergePayloads []
            [{ path := "a", content := some "1" }, { path := "a", content := some "2" }] := by
  refine ⟨by decide, by decide, by decide⟩

/-- C8 (amended): for payload lists with pairwise distinct paths,
merging the two halves of splitByMachine reproduces the original payload
set exactly (the machine flags always partition the payload paths, since
a path either is or is not in the config's machine set; with a duplicated
machine path, however, the Map inside mergePayloads collapses payloads,
so distinctness is required). -/
theorem mergeSplit_set_roundtrip (config : BwrssConfig) (payloads : List FilePayload)
    (hnd : (payloads.map FilePayload.path).Nodup) :
    ∀ p, p ∈ mergePayloads (splitByMachine config payloads).shared
            (splitByMachine config payloads).machine ↔ p ∈ payloads := by
  intro p
  rw [mergePayloads_splitByMachine config payloads hnd]
  unfold splitByMachine
  simp only [List.mem_append, List.mem_filter]
  constructor
  · rintro (⟨hp, _⟩ | ⟨hp, _⟩) <;> exact hp
  · intro hp
    by_cases hc : ((config.files.filter (fun f => f.machine.getD false)).map
        (fun f => f.path)).contains p.path
    · exact Or.inr ⟨hp, hc⟩
    · refine Or.inl ⟨hp, ?_⟩
      cases hb : ((config.files.filter (fun f => f.machine.getD false)).map
          (fun f => f.path)).contains p.path with
      | true => exact absurd hb hc
      | false => simp [hb]

/-- Witness for C8 at a concrete config and payload list. -/
theorem mergeSplit_set_roundtrip_witness :
    (([{ path := "s", content := some "1" }, { path := "m", content := some "2" }]
        : List FilePayload).map FilePayload.path).Nodup
    ∧ (({ path := "m", content := some "2" } : FilePayload)
        ∈ mergePayloads
          (splitByMachine
            { version := 1, name := none,
              files := [{ path := "m", keys := none, machine := some true }] }
            [{ path := "s", content := some "1" }, { path := "m", content := some "2" }]).shared
          (splitByMachine
            { version := 1, name := none,
              files := [{ path := "m", keys := none, machine := some true }] }
            [{ path := "s", content := some "1" }, { path := "m", content := some "2" }]).machine
        ↔ ({ path := "m", content := some "2" } : FilePayload)
          ∈ [{ path := "s", content := some "1" }, { path := "m", content := some "2" }]) :=
  ⟨by decide,
    mergeSplit_set_roundtrip
      { version := 1, name := none,
        files := [{ path := "m", keys := none, machine := some true }] }
      [{ path := "s", content := some "1" }, { path := "m", content := some "2" }]
      (by decide) _⟩

/-- Counterexample for C8 as frozen: two payloads with the same
machine-classified path satisfy the claim's partition hypothesis, yet
the merged result loses the earlier payload, so the original set is not
reproduced. -/
theorem mergeSplit_duplicate_path_loses_payload :
    mergePayloads
        (splitByMachine
          { version := 1, name := none,
            files := [{ path := "m", keys := none, machine := some true }] }
          [{ path := "m", content := some "1" }, { path := "m", content := some "2" }]).shared
        (splitByMachine
          { version := 1, name := none,
            files := [{ path := "m", keys := none, machine := some true }] }
          [{ path := "m", content := some "1" }, { path := "m", content := some "2" }]).machine
      = [{ path := "m", content := some "2" }]
    ∧ ({ path := "m", content := some "1" } : FilePayload)
        ∈ ([{ path := "m", content := some "1" }, { path := "m", content := some "2" }]
            : List FilePayload)
    ∧ ({ path := "m", content := some "1" } : FilePayload)
        ∉ ([{ path := "m", content := some "2" }] : List FilePayload) := by
  refine ⟨by decide, by decide, by decide⟩

/-- C2 (amended): for every nested mapping whose leaf values are
strings, whose keys are nonempty, hold no dot and are none of the
dot-prop-refused names, with no duplicate key at a level and no empty
sub-mapping — such mappings have no array values and no dot-segment key
collisions — unflatten inverts flatten.  (On other mappings the round
trip can fail: non-string leaves come back stringified, dotted keys are
re-split, empty sub-mappings vanish.) -/
theorem unflatten_flatten_roundtrip (x : List (String × JVal)) (h : GoodEntries x) :
    unflatten (flatten x "") = x :=
  unflatten_flatten x h

/-- Witness for C2 at a two-entry mapping with one nested level. -/
theorem unflatten_flatten_roundtrip_witness :
    GoodEntries [("db", JVal.obj [("host", JVal.str "localhost")]), ("k", JVal.str "v")]
    ∧ unflatten (flatten
        [("db", JVal.obj [("host", JVal.str "localhost")]), ("k", JVal.str "v")] "")
        = [("db", JVal.obj [("host", JVal.str "localhost")]), ("k", JVal.str "v")] := by
  have hg : GoodEntries
      [("db", JVal.obj [("host", JVal.str "localhost")]), ("k", JVal.str "v")] := by
    refine ⟨by simp, ?_, ?_⟩
    · intro e he
      simp only [List.mem_cons, List.not_mem_nil, or_false] at he
      rcases he with rfl | rfl
      · exact ⟨by decide, by decide, by decide⟩
      · exact ⟨by decide, by decide, by decide⟩
    · intro e he
      simp only [List.mem_cons, List.not_mem_nil, or_false] at he
      rcases he with rfl | rfl
      · refine GoodVal.obj _ (by simp) (by simp) ?_ ?_
        · intro e2 he2
          simp only [List.mem_cons, List.not_mem_nil, or_false] at he2
          subst he2
          exact ⟨by decide, by decide, by decide⟩
        · intro e2 he2
          simp only [List.mem_cons, List.not_mem_nil, or_false] at he2
          subst he2
          exact GoodVal.str "localhost"
      · exact GoodVal.str "v"
  exact ⟨hg, unflatten_flatten_roundtrip _ hg⟩

/-- Counterexample for C2 as frozen: the mapping with a single numeric
leaf has no array values and no dot-segment key collisions, yet the
round trip returns the string "1" in place of the number 1. -/
theorem unflatten_flatten_not_id :
    unflatten (flatten [("a", JVal.num 1)] "") = [("a", JVal.str "1")]
    ∧ unflatten (flatten [("a", JVal.num 1)] "") ≠ [("a", JVal.num 1)] := by
  have h1 : unflatten (flatten [("a", JVal.num 1)] "") = [("a", JVal.str "1")] := by
    have h2 : flatten [("a", JVal.num 1)] "" = [("a", "1")] := by
      simp [flatten, flattenRaw, jsToString, aset]
      rfl
    rw [h2]
    simp [unflatten, setProperty, splitDot, splitSepChars, disallowedKey, setPathSegs, aset]
  refine ⟨h1, ?_⟩
  rw [h1]
  intro hcontra
  have h4 : ("a", JVal.str "1") = ("a", JVal.num 1) := List.head_eq_of_cons_eq hcontra
  have h5 : JVal.str "1" = JVal.num 1 := congrArg Prod.snd h4
  cases h5

/-- C3 (amended): merging a key map that exactly matches the parsed
current values returns byte-identical content provided each assignment
line carrying a key of the map is already written in the canonical
key=value form the merge loop emits (no spaces around the equals sign,
no quotes); the map, being a JS object, has pairwise distinct keys.
(Lines with extra formatting are rewritten canonically, so byte
identity fails without that condition.) -/
theorem iniMerge_exact_values_byte_identical (c : String) (m : List (String × String))
    (hnd : (m.map Prod.fst).Nodup)
    (hvals : ∀ e ∈ m, alookup (iniParser.parse c) e.1 = some e.2)
    (hcanon : ∀ line ∈ splitLines c, ∀ k v0, lineKind line = LineKind.assign k v0 →
      ∀ v, alookup m k = some v → line = k ++ "=" ++ v) :
    iniParser.merge c m = c :=
  iniMerge_of_canonical c m hnd hvals hcanon

/-- Witness for C3 at a comment, a matched line and an untouched line. -/
theorem iniMerge_exact_values_byte_identical_witness :
    iniParser.merge "# c\nA=1\nB=2" [("A", "1")] = "# c\nA=1\nB=2" := by
  refine iniMerge_exact_values_byte_identical "# c\nA=1\nB=2" [("A", "1")]
    (by decide) ?_ ?_
  · intro e he
    simp only [List.mem_cons, List.not_mem_nil, or_false] at he
    subst he
    decide
  · intro line hl k v0 hassign v hv
    have hsplit : splitLines "# c\nA=1\nB=2" = ["# c", "A=1", "B=2"] := by decide
    rw [hsplit] at hl
    simp only [List.mem_cons, List.not_mem_nil, or_false] at hl
    rcases hl with rfl | rfl | rfl
    · rw [show lineKind "# c" = LineKind.pass from by decide] at hassign
      cases hassign
    · rw [show lineKind "A=1" = LineKind.assign "A" "1" from by decide] at hassign
      injection hassign with h2 h3
      subst h2
      rw [show alookup [("A", "1")] "A" = some "1" from by decide] at hv
      injection hv with hv
      subst hv
      decide
    · rw [show lineKind "B=2" = LineKind.assign "B" "2" from by decide] at hassign
      injection hassign with h2 h3
      subst h2
      rw [show alookup [("A", "1")] "B" = none from by decide] at hv
      cases hv

/-- Counterexample for C3 as frozen: the content "A = 1" parses to
exactly the merged map, yet merge rewrites the line without the spaces,
so the output is not byte-identical. -/
theorem iniMerge_not_byte_identical :
    iniParser.parse "A = 1" = [("A", "1")]
    ∧ iniParser.merge "A = 1" [("A", "1")] = "A=1"
    ∧ ("A=1" : String) ≠ "A = 1" := by
  refine ⟨by decide, by decide, by decide⟩

/-- C6 (amended): on patterns drawn from letters, digits, underscore,
hyphen, dot and star, matchGlob is the anchored, case-sensitive match
in which an isolated star matches a run free of dots while a doubled
star matches an arbitrary run (this last case is where the frozen claim
fails); all the spec's examples hold. -/
theorem matchGlob_star_semantics :
    (∀ key pattern : String, patternSafe pattern = true →
      (matchGlob key pattern = true ↔ GlobSem (tokenizeGlob pattern.data) key.data))
    ∧ matchGlob "API_KEY" "API_*" = true
    ∧ matchGlob "DB_HOST" "API_*" = false
    ∧ matchGlob "database.password" "database.*" = true
    ∧ matchGlob "api.key" "database.*" = false
    ∧ matchGlob "db.password" "db.*" = true
    ∧ matchGlob "db.auth.token" "db.*" = false := by
  refine ⟨fun key pattern _ => globMatch_iff_sem _ _, ?_, ?_, ?_, ?_, ?_, ?_⟩
  all_goals simp [matchGlob, tokenizeGlob, globMatch]

/-- Witness for C6 on the spec's first example pattern. -/
theorem matchGlob_star_semantics_witness :
    patternSafe "API_*" = true
    ∧ (matchGlob "API_KEY" "API_*" = true ↔
        GlobSem (tokenizeGlob "API_*".data) "API_KEY".data) :=
  ⟨by decide, matchGlob_star_semantics.1 "API_KEY" "API_*" (by decide)⟩

/-- Counterexample for C6 as frozen: in the pattern "db.**" the doubled
star matches across dots, so the key "db.x.y" matches, while the frozen
claim (every star in a pattern matches only dot-free characters, read
here as tokenizing each star separately) rejects it. -/
theorem matchGlob_doublestar_crosses_dots :
    matchGlob "db.x.y" "db.**" = true
    ∧ ¬ GlobSem (tokenizeAllSingle "db.**".data) "db.x.y".data := by
  constructor
  · simp [matchGlob, tokenizeGlob, globMatch]
  · intro hsem
    have h := globMatch_complete _ _ hsem
    simp [tokenizeAllSingle, globMatch] at h

/-- C7 (amended): getParser routes every path whose base name (the part
after the last slash) starts with ".env" to the INI parser; any other
path is dispatched to exactly the parser whose declared extensions
contain the LOWERCASED extension of the path, and to none when no
parser declares it.  (The frozen claim's exact-match reading fails on
upper-case extensions, lowercased before comparison.) -/
theorem getParser_dispatch :
    ∀ path : String,
      (".env".data.isPrefixOf ((splitSepChars '/' path.data []).getLastD []) = true →
        getParser path = some ParserId.ini)
      ∧ (".env".data.isPrefixOf ((splitSepChars '/' path.data []).getLastD []) = false →
        (∀ p : ParserId, getParser path = some p ↔
          toLowerStr (extname path) ∈ parserExtensions p)
        ∧ (getParser path = none ↔
          ∀ p : ParserId, toLowerStr (extname path) ∉ parserExtensions p)) := by
  intro path
  constructor
  · intro h
    show (if ".env".data.isPrefixOf
          (String.mk ((splitSepChars '/' path.data []).getLastD [])).data then
        some ParserId.ini
      else parsers.find? (fun p => (parserExtensions p).contains (toLowerStr (extname path))))
        = some ParserId.ini
    have h2 : ".env".data.isPrefixOf
        (String.mk ((splitSepChars '/' path.data []).getLastD [])).data = true := h
    rw [h2]
    simp
  · intro h
    have hgp : getParser path =
        parsers.find? (fun p => (parserExtensions p).contains (toLowerStr (extname path))) := by
      show (if ".env".data.isPrefixOf
            (String.mk ((splitSepChars '/' path.data []).getLastD [])).data then
          some ParserId.ini
        else parsers.find? (fun p => (parserExtensions p).contains (toLowerStr (extname path))))
          = parsers.find? (fun p => (parserExtensions p).contains (toLowerStr (extname path)))
      have h2 : ".env".data.isPrefixOf
          (String.mk ((splitSepChars '/' path.data []).getLastD [])).data = false := h
      rw [h2]
      simp
    constructor
    · intro p
      constructor
      · intro hf
        rw [hgp] at hf
        have hpred := List.find?_some hf
        simpa using hpred
      · intro hmem
        rw [hgp]
        cases p with
        | ini =>
          have he : toLowerStr (extname path) = ".env" := by
            simpa [parserExtensions] using hmem
          rw [he]
          decide
        | json =>
          have he : toLowerStr (extname path) = ".json" := by
            simpa [parserExtensions] using hmem
          rw [he]
          decide
        | yaml =>
          have he : toLowerStr (extname path) = ".yaml"
              ∨ toLowerStr (extname path) = ".yml" := by
            simpa [parserExtensions] using hmem
          rcases he with he | he <;> rw [he] <;> decide
        | toml =>
          have he : toLowerStr (extname path) = ".toml" := by
            simpa [parserExtensions] using hmem
          rw [he]
          decide
    · rw [hgp]
      constructor
      · intro hf p hmem
        exact List.find?_eq_none.mp hf p (by cases p <;> decide) (by simpa using hmem)
      · intro hall
        rw [List.find?_eq_none]
        intro p _ hc
        exact hall p (by simpa using hc)

/-- Witness for C7 at a .env-convention path and a plain .toml path. -/
theorem getParser_dispatch_witness :
    (".env".data.isPrefixOf
        ((splitSepChars '/' "config/.env.production".data []).getLastD []) = true
      ∧ getParser "config/.env.production" = some ParserId.ini)
    ∧ (".env".data.isPrefixOf ((splitSepChars '/' "a.toml".data []).getLastD []) = false
      ∧ (getParser "a.toml" = some ParserId.toml ↔
          toLowerStr (extname "a.toml") ∈ parserExtensions ParserId.toml)) :=
  ⟨⟨by decide, (getParser_dispatch "config/.env.production").1 (by decide)⟩,
   ⟨by decide, ((getParser_dispatch "a.toml").2 (by decide)).1 ParserId.toml⟩⟩

/-- Counterexample for C7 as frozen: "config.JSON" has extension
".JSON", which no parser's declared extension set contains, so the
exact-match reading returns no parser; getParser lowercases before the
comparison and returns the JSON parser. -/
theorem getParser_not_exact_match :
    getParser "config.JSON" = some ParserId.json
    ∧ extname "config.JSON" = ".JSON"
    ∧ ∀ p : ParserId, ".JSON" ∉ parserExtensions p := by
  refine ⟨by decide, by decide, ?_⟩
  intro p
  cases p <;> decide

/-- C4: yamlMerge, modelled from the spec's comment-preserving document
model, changes only the targeted mapping lines: every comment, blank or
other non-mapping line of the input is still present at its own line
index of the output, and every mapping line whose dot-path is not
targeted by the key map keeps its exact text and position; in
particular a leading "# Config file" comment survives any merge. -/
theorem yamlMerge_preserves_comments (content : String) (m : List (String × String))
    (hm : ∀ e ∈ m, '\n' ∉ e.1.data ∧ '\n' ∉ e.2.data) (i : Nat) (line : String)
    (hline : (splitLines content).get? i = some line) :
    (lineShape line = none →
      (splitLines (yamlMerge content m)).get? i = some line)
    ∧ (∀ e : YEntry, (parseDoc content).get? i = some (YNode.entry e) →
        (∀ ke ∈ m, splitDot ke.1 ≠ e.path) →
        (splitLines (yamlMerge content m)).get? i = some line) := by
  constructor
  · intro hshape
    rw [yamlMerge_lines content m hm]
    have h1 : (parseDoc content).get? i = some (YNode.pass line) :=
      parseDocGo_get_pass (splitLines content) [] i line hline hshape
    have h2 := fold_get_pass m (parseDoc content) i line h1
    rw [List.get?_map, h2]
    rfl
  · intro e hentry hne
    rw [yamlMerge_lines content m hm]
    have h2 := fold_get_entry m (parseDoc content) i e hentry hne
    rw [List.get?_map, h2]
    have h3 : (parseDoc content).map renderNode = splitLines content :=
      parseDocGo_render (splitLines content) []
    have h4 : ((parseDoc content).map renderNode).get? i = some line := by
      rw [h3]
      exact hline
    rw [List.get?_map, hentry] at h4
    exact h4

/-- Witness for C4 at the spec's own sample: the leading comment line
survives merging database.password. -/
theorem yamlMerge_preserves_comments_witness :
    (∀ e ∈ [("database.password", "new_pass")],
        '\n' ∉ (Prod.fst e).data ∧ '\n' ∉ (Prod.snd e).data)
    ∧ lineShape "# Config file" = none
    ∧ (splitLines (yamlMerge
        "# Config file\ndatabase:\n  host: localhost\n  password: s3cret\napi:\n  key: abc123\n"
        [("database.password", "new_pass")])).get? 0 = some "# Config file" :=
  ⟨by decide, by decide,
   (yamlMerge_preserves_comments
      "# Config file\ndatabase:\n  host: localhost\n  password: s3cret\napi:\n  key: abc123\n"
      [("database.password", "new_pass")] (by decide) 0 "# Config file"
      (by decide)).1 (by decide)⟩

end Bwrss
